import Mathlib

/-!
Verification of the bounded open-addressed map (part_2) and the statistics
ingester (part_3) of the repository.

The three table variants of `part_2/src` are embedded shallowly:

* `ArrayHashTable` (array_hash_table.rs) — the fixed array of `CAPACITY`
  slots is a function from slot indices to optional entries; the hasher
  (`DefaultHasher`) enters as an arbitrary deterministic function `hf` of the
  key bytes, reduced modulo `CAPACITY` exactly as the source does.  The
  unbounded `loop`s of `get` and `remove` are observed through a step budget
  (`fuel`): since a probe mutates nothing before it returns, a run that has
  not returned within `CAPACITY` steps revisits its start slot in an unchanged
  table and therefore never returns.
* `VectorHashTable` (vector_hash_table.rs) — `Vec<Option<(String, i32)>>` is a
  list; an operation returns `none` where the Rust code panics (the `% 0` of
  `hash` on a zero-capacity table, or an out-of-bounds index).
* `HashMapHashTable` (hash_map_hash_table.rs) — `HashMap<String, i32>` is an
  association list without duplicate keys and `VecDeque<String>` a list.

Keys of the array table are byte sequences (`List Nat`), keys of the other two
are `String`s, as in the source.
-/

/-- `CAPACITY` of the fixed-size table (array_hash_table.rs line 6). -/
def CAPACITY : Nat := 12134

/-- Maximum key length of the fixed buffers (array_hash_table.rs line 8). -/
def MAX_KEY_LEN : Nat := 30

/-- One occupied slot of the array table, `([u8; MAX_KEY_LEN], usize, i32)`:
the padded key buffer, the live key length and the value. -/
structure AEntry where
  key : List Nat
  len : Nat
  val : Int
  deriving DecidableEq

/-- The fixed-size open-addressing table (array_hash_table.rs lines 18-25):
`CAPACITY` optional entries plus the `first`/`last` endpoint pointers. -/
structure ArrayHashTable where
  table : Nat → Option AEntry
  first : Option Nat
  last : Option Nat

/-- `ArrayHashTable::new` (lines 29-35). -/
def ArrayHashTable.new : ArrayHashTable :=
  { table := fun _ => none, first := none, last := none }

/-- `ArrayHashTable::hash` (lines 38-42): the `DefaultHasher` value — an
arbitrary deterministic function `hf` of the key bytes — reduced modulo
`CAPACITY`. -/
def ArrayHashTable.hash (hf : List Nat → Nat) (key : List Nat) : Nat :=
  hf key % CAPACITY

/-- `padded_copy` (lines 129-131): the key bytes followed by the zero padding
of the fixed buffer. -/
def padded_copy (src : List Nat) : List Nat :=
  src ++ List.replicate (MAX_KEY_LEN - src.length) 0

/-- The slot guard `&existing_key[..*existing_len] == key` shared by insert,
get and remove: compare the first `len` stored bytes with the probe key. -/
def slotMatches (e : AEntry) (key : List Nat) : Bool :=
  e.key.take e.len == key

/-- Result of an insert: `Ok(())`, `Err("Hash table is full")` or
`Err("Key length exceeds maximum allowed length")`. -/
inductive InsertResult where
  | ok
  | full
  | keyTooLong
  deriving DecidableEq

/-- `self.table[idx] = Some(e)`. -/
def writeSlot (t : Nat → Option AEntry) (i : Nat) (e : AEntry) : Nat → Option AEntry :=
  fun j => if j = i then some e else t j

/-- `self.table[idx] = None`. -/
def eraseSlot (t : Nat → Option AEntry) (i : Nat) : Nat → Option AEntry :=
  fun j => if j = i then none else t j

/-- The scan body of `update_first_last`: at an occupied slot `i`, record it
as `first` when none is recorded yet and always as `last`. -/
def scanStep (t : Nat → Option AEntry) (acc : Option Nat × Option Nat) (i : Nat) :
    Option Nat × Option Nat :=
  match t i with
  | some _ => (if acc.1 = none then some i else acc.1, some i)
  | none => acc

/-- `ArrayHashTable::update_first_last` (lines 115-126): reset both pointers
and rescan the slots in index order `0..CAPACITY`. -/
def ArrayHashTable.update_first_last (st : ArrayHashTable) : ArrayHashTable :=
  { st with
    first := ((List.range CAPACITY).foldl (scanStep st.table) (none, none)).1,
    last := ((List.range CAPACITY).foldl (scanStep st.table) (none, none)).2 }

/-- The probe loop of `ArrayHashTable::insert` (lines 56-73); `fuel` counts
the remaining iterations of `for _ in 0..CAPACITY`. -/
def ArrayHashTable.insertLoop (pk : List Nat) (kl : Nat) (key : List Nat) (v : Int) :
    Nat → Nat → ArrayHashTable → InsertResult × ArrayHashTable
  | 0, _, st => (.full, st)
  | fuel + 1, idx, st =>
    match st.table idx with
    | none =>
      (.ok, { table := writeSlot st.table idx ⟨pk, kl, v⟩,
              first := if st.first = none then some idx else st.first,
              last := some idx })
    | some e =>
      if slotMatches e key then
        (.ok, { table := writeSlot st.table idx ⟨pk, kl, v⟩,
                first := st.first, last := some idx })
      else
        ArrayHashTable.insertLoop pk kl key v fuel ((idx + 1) % CAPACITY) st

/-- `ArrayHashTable::insert` (lines 46-75). -/
def ArrayHashTable.insert (hf : List Nat → Nat) (st : ArrayHashTable)
    (key : List Nat) (v : Int) : InsertResult × ArrayHashTable :=
  if MAX_KEY_LEN < key.length then (.keyTooLong, st)
  else ArrayHashTable.insertLoop (padded_copy key) key.length key v
    CAPACITY (ArrayHashTable.hash hf key) st

/-- The unbounded `loop` of `ArrayHashTable::get` (lines 96-105), observed for
`fuel` probe steps: `none` means the loop has not returned within `fuel`
steps.  Probing mutates nothing, so `none` at every `fuel` is exactly
non-termination of the source loop. -/
def ArrayHashTable.getLoop (key : List Nat) :
    Nat → Nat → ArrayHashTable → Option (Option Int)
  | 0, _, _ => none
  | fuel + 1, idx, st =>
    match st.table idx with
    | none => some none
    | some e =>
      if slotMatches e key then some (some e.val)
      else ArrayHashTable.getLoop key fuel ((idx + 1) % CAPACITY) st

/-- `ArrayHashTable::get`, observed for `fuel` probe steps. -/
def ArrayHashTable.get (hf : List Nat → Nat) (st : ArrayHashTable)
    (key : List Nat) (fuel : Nat) : Option (Option Int) :=
  ArrayHashTable.getLoop key fuel (ArrayHashTable.hash hf key) st

/-- The unbounded `loop` of `ArrayHashTable::remove` (lines 78-93), observed
for `fuel` probe steps; `none` means no return within `fuel` steps. -/
def ArrayHashTable.removeLoop (key : List Nat) :
    Nat → Nat → ArrayHashTable → Option ArrayHashTable
  | 0, _, _ => none
  | fuel + 1, idx, st =>
    match st.table idx with
    | none => some st
    | some e =>
      if slotMatches e key then
        let st' : ArrayHashTable := { st with table := eraseSlot st.table idx }
        some (if st.first = some idx ∨ st.last = some idx
              then st'.update_first_last else st')
      else
        ArrayHashTable.removeLoop key fuel ((idx + 1) % CAPACITY) st

/-- `ArrayHashTable::remove`, observed for `fuel` probe steps. -/
def ArrayHashTable.remove (hf : List Nat → Nat) (st : ArrayHashTable)
    (key : List Nat) (fuel : Nat) : Option ArrayHashTable :=
  ArrayHashTable.removeLoop key fuel (ArrayHashTable.hash hf key) st

/-- `ArrayHashTable::get_last` (lines 107-109). -/
def ArrayHashTable.get_last (st : ArrayHashTable) : Option (List Nat × Int) :=
  st.last.bind fun idx => (st.table idx).map fun e => (e.key.take e.len, e.val)

/-- `ArrayHashTable::get_first` (lines 111-113). -/
def ArrayHashTable.get_first (st : ArrayHashTable) : Option (List Nat × Int) :=
  st.first.bind fun idx => (st.table idx).map fun e => (e.key.take e.len, e.val)

/-- A mutating call on the array table. -/
inductive AOp where
  | ins (key : List Nat) (v : Int)
  | rem (key : List Nat)

/-- One call; a `remove` is given `CAPACITY` probe steps, within which it
either returns or (the table being unchanged by probing) never will. -/
def ArrayHashTable.applyOp (hf : List Nat → Nat) (st : ArrayHashTable) :
    AOp → Option ArrayHashTable
  | .ins key v => some (ArrayHashTable.insert hf st key v).2
  | .rem key => ArrayHashTable.remove hf st key CAPACITY

/-- Run a call sequence from `ArrayHashTable::new`; `none` once a `remove`
fails to terminate. -/
def ArrayHashTable.runOps (hf : List Nat → Nat) (ops : List AOp) :
    Option ArrayHashTable :=
  ops.foldl (fun acc op => acc.bind fun st => ArrayHashTable.applyOp hf st op)
    (some ArrayHashTable.new)

/-- The growable-storage table (vector_hash_table.rs lines 11-16):
`Vec<Option<(String, i32)>>` plus the stored capacity. -/
structure VectorHashTable where
  table : List (Option (String × Int))
  capacity : Nat
  deriving DecidableEq

/-- `VectorHashTable::new` (lines 20-25): `vec![None; size]`. -/
def VectorHashTable.new (size : Nat) : VectorHashTable :=
  { table := List.replicate size none, capacity := size }

/-- `VectorHashTable::hash` (lines 27-31): `none` models the
division-by-zero panic of `% self.capacity` on a zero-capacity table. -/
def VectorHashTable.hash (hf : String → Nat) (st : VectorHashTable)
    (key : String) : Option Nat :=
  if st.capacity = 0 then none else some (hf key % st.capacity)

/-- The probe loop of `VectorHashTable::insert` (lines 37-49); the outer
`Option` is `none` where the Rust code would panic on an out-of-bounds index,
and `fuel` counts the remaining iterations of `for _ in 0..self.capacity`. -/
def VectorHashTable.insertLoop (key : String) (v : Int) :
    Nat → Nat → VectorHashTable → Option (InsertResult × VectorHashTable)
  | 0, _, st => some (.full, st)
  | fuel + 1, idx, st =>
    match st.table[idx]? with
    | none => none
    | some none => some (.ok, { st with table := st.table.set idx (some (key, v)) })
    | some (some (k2, _)) =>
      if k2 = key then
        some (.ok, { st with table := st.table.set idx (some (key, v)) })
      else
        VectorHashTable.insertLoop key v fuel ((idx + 1) % st.capacity) st

/-- `VectorHashTable::insert` (lines 35-51). -/
def VectorHashTable.insert (hf : String → Nat) (st : VectorHashTable)
    (key : String) (v : Int) : Option (InsertResult × VectorHashTable) :=
  (VectorHashTable.hash hf st key).bind fun idx =>
    VectorHashTable.insertLoop key v st.capacity idx st

/-- The probe loop of `VectorHashTable::get` (lines 55-61); exhausting the
`for` loop falls through to `None` (`some none`), unlike the array table. -/
def VectorHashTable.getLoop (key : String) :
    Nat → Nat → VectorHashTable → Option (Option Int)
  | 0, _, _ => some none
  | fuel + 1, idx, st =>
    match st.table[idx]? with
    | none => none
    | some none => some none
    | some (some (k2, v2)) =>
      if k2 = key then some (some v2)
      else VectorHashTable.getLoop key fuel ((idx + 1) % st.capacity) st

/-- `VectorHashTable::get` (lines 53-63). -/
def VectorHashTable.get (hf : String → Nat) (st : VectorHashTable)
    (key : String) : Option (Option Int) :=
  (VectorHashTable.hash hf st key).bind fun idx =>
    VectorHashTable.getLoop key st.capacity idx st

/-- The probe loop of `VectorHashTable::remove` (lines 67-76). -/
def VectorHashTable.removeLoop (key : String) :
    Nat → Nat → VectorHashTable → Option VectorHashTable
  | 0, _, st => some st
  | fuel + 1, idx, st =>
    match st.table[idx]? with
    | none => none
    | some none => some st
    | some (some (k2, _)) =>
      if k2 = key then some ({ st with table := st.table.set idx none })
      else VectorHashTable.removeLoop key fuel ((idx + 1) % st.capacity) st

/-- `VectorHashTable::remove` (lines 65-77). -/
def VectorHashTable.remove (hf : String → Nat) (st : VectorHashTable)
    (key : String) : Option VectorHashTable :=
  (VectorHashTable.hash hf st key).bind fun idx =>
    VectorHashTable.removeLoop key st.capacity idx st

/-- A call on the vector table. -/
inductive VOp where
  | ins (key : String) (v : Int)
  | rem (key : String)
  | getOp (key : String)

/-- One call; `none` where it panics.  A failed insert returns its error and
the program goes on with the table as it was. -/
def VectorHashTable.applyOp (hf : String → Nat) (st : VectorHashTable) :
    VOp → Option VectorHashTable
  | .ins k v => (VectorHashTable.insert hf st k v).map Prod.snd
  | .rem k => VectorHashTable.remove hf st k
  | .getOp k => (VectorHashTable.get hf st k).map fun _ => st

/-- Run a call sequence from `VectorHashTable::new size`; `none` once a call
panics. -/
def VectorHashTable.runOps (hf : String → Nat) (size : Nat) (ops : List VOp) :
    Option VectorHashTable :=
  ops.foldl (fun acc op => acc.bind fun st => VectorHashTable.applyOp hf st op)
    (some (VectorHashTable.new size))

/-- `HashMap::contains_key` on the association-list model of
`HashMap<String, i32>` (no duplicate keys in any reachable state). -/
def mapContains (m : List (String × Int)) (k : String) : Bool :=
  m.any fun p => p.1 == k

/-- `HashMap::get`. -/
def mapGetV (m : List (String × Int)) (k : String) : Option Int :=
  (m.find? fun p => p.1 == k).map Prod.snd

/-- `HashMap::insert`: replace the value of a present key in place, append a
fresh key at the tail. -/
def mapInsertPair : List (String × Int) → String → Int → List (String × Int)
  | [], k, v => [(k, v)]
  | p :: rest, k, v =>
    if p.1 == k then (k, v) :: rest else p :: mapInsertPair rest k v

/-- `HashMap::remove` (the key part): drop the entry of `k`. -/
def mapErase (m : List (String × Int)) (k : String) : List (String × Int) :=
  m.eraseP fun p => p.1 == k

/-- The deque-over-map table (hash_map_hash_table.rs lines 8-15). -/
structure HashMapHashTable where
  map : List (String × Int)
  order : List String
  capacity : Nat
  deriving DecidableEq

/-- `HashMapHashTable::new` (lines 19-25). -/
def HashMapHashTable.new (capacity : Nat) : HashMapHashTable :=
  { map := [], order := [], capacity := capacity }

/-- `HashMapHashTable::insert` (lines 28-41): update a present key in place
(the order deque untouched), reject a fresh key at capacity, otherwise store
it and push its key at the back of the deque. -/
def HashMapHashTable.insert (st : HashMapHashTable) (key : String) (v : Int) :
    InsertResult × HashMapHashTable :=
  if mapContains st.map key then
    (.ok, { st with map := mapInsertPair st.map key v })
  else if st.map.length = st.capacity then
    (.full, st)
  else
    (.ok, { st with map := mapInsertPair st.map key v, order := st.order ++ [key] })

/-- `HashMapHashTable::get` (lines 43-45). -/
def HashMapHashTable.get (st : HashMapHashTable) (key : String) : Option Int :=
  mapGetV st.map key

/-- `HashMapHashTable::remove` (lines 47-53): when the map held the key, also
drop its first occurrence from the order deque. -/
def HashMapHashTable.remove (st : HashMapHashTable) (key : String) : HashMapHashTable :=
  if mapContains st.map key then
    { st with map := mapErase st.map key, order := st.order.eraseP fun s => s == key }
  else st

/-- `HashMapHashTable::get_first` (lines 55-57). -/
def HashMapHashTable.get_first (st : HashMapHashTable) : Option (String × Int) :=
  st.order.head?.bind fun k => (mapGetV st.map k).map fun v => (k, v)

/-- `HashMapHashTable::get_last` (lines 59-61). -/
def HashMapHashTable.get_last (st : HashMapHashTable) : Option (String × Int) :=
  st.order.getLast?.bind fun k => (mapGetV st.map k).map fun v => (k, v)

/-- A mutating call on the deque-over-map table. -/
inductive HMOp where
  | ins (key : String) (v : Int)
  | rem (key : String)

/-- One call (both calls are total and never panic). -/
def HashMapHashTable.applyOp (st : HashMapHashTable) : HMOp → HashMapHashTable
  | .ins k v => (HashMapHashTable.insert st k v).2
  | .rem k => HashMapHashTable.remove st k

/-- Run a call sequence from `HashMapHashTable::new cap`. -/
def HashMapHashTable.runOps (cap : Nat) (ops : List HMOp) : HashMapHashTable :=
  ops.foldl HashMapHashTable.applyOp (HashMapHashTable.new cap)

/-- Reference for claim C2, written from the claim's words rather than the
code: the currently-live entries in first-insertion order carrying their
current values.  An insert of a live key updates its value in place, a fresh
key joins at the tail when room remains, a removal deletes the entry. -/
def specStep (cap : Nat) (l : List (String × Int)) : HMOp → List (String × Int)
  | .ins k v =>
    if (l.map Prod.fst).contains k then l.map fun p => if p.1 == k then (k, v) else p
    else if l.length = cap then l
    else l ++ [(k, v)]
  | .rem k => l.eraseP fun p => p.1 == k

/-- The live entries, in first-insertion order, after a call sequence. -/
def liveEntries (cap : Nat) (ops : List HMOp) : List (String × Int) :=
  ops.foldl (specStep cap) []

/-!
The statistics ingester (part_3/src/parser.rs).  `serde_json::Value` is the
inductive `JValue`; a JSON number is kept only as far as `as_u64` observes it
(an unsigned integer, a negative integer, or a float whose value no claim
reads).  `str::parse::<f64>` enters as an arbitrary partial function
`pf : String → Option F` into an arbitrary type `F` standing for `f64`: the
ingestion claims concern only which records survive, never float values.
-/

/-- A serde_json number, as far as `as_u64` distinguishes it. -/
inductive JNumber where
  | posInt (n : Nat)
  | negInt (n : Int)
  | float
  deriving DecidableEq

/-- `serde_json::Value`. -/
inductive JValue where
  | null
  | bool (b : Bool)
  | num (n : JNumber)
  | str (s : String)
  | arr (items : List JValue)
  | obj (fields : List (String × JValue))

/-- `Value::index` with a string key: field lookup on an object, `Null` on
every other variant (serde_json's `Index for str`). -/
def jIndex (v : JValue) (k : String) : JValue :=
  match v with
  | .obj fields => ((fields.find? fun p => p.1 == k).map Prod.snd).getD .null
  | _ => .null

/-- `Value::as_str`. -/
def jAsStr : JValue → Option String
  | .str s => some s
  | _ => none

/-- `Value::as_u64`: only an unsigned integer number. -/
def jAsU64 : JValue → Option Nat
  | .num (.posInt n) => some n
  | _ => none

/-- `Value::as_array`. -/
def jAsArr : JValue → Option (List JValue)
  | .arr items => some items
  | _ => none

def fSymbol : String := "symbol"
def fPriceChange : String := "priceChange"
def fPriceChangePercent : String := "priceChangePercent"
def fLastPrice : String := "lastPrice"
def fLastQty : String := "lastQty"
def fOpen : String := "open"
def fHigh : String := "high"
def fLow : String := "low"
def fVolume : String := "volume"
def fAmount : String := "amount"
def fBidPrice : String := "bidPrice"
def fAskPrice : String := "askPrice"
def fOpenTime : String := "openTime"
def fCloseTime : String := "closeTime"
def fFirstTradeId : String := "firstTradeId"
def fTradeCount : String := "tradeCount"
def fStrikePrice : String := "strikePrice"
def fExercisePrice : String := "exercisePrice"

/-- `InstrumentStats` (parser.rs lines 4-24); `F` stands for `f64`, and the
Rust field `open` is `open_` (`open` is a Lean keyword). -/
structure InstrumentStats (F : Type) where
  symbol : String
  price_change : F
  price_change_percent : F
  last_price : F
  last_qty : F
  open_ : F
  high : F
  low : F
  volume : F
  amount : F
  bid_price : F
  ask_price : F
  open_time : Nat
  close_time : Nat
  first_trade_id : Nat
  trade_count : Nat
  strike_price : F
  exercise_price : F

/-- One numeric-string field: `item[name].as_str().and_then(|s| s.parse().ok())`. -/
def numField {F : Type} (pf : String → Option F) (item : JValue) (name : String) :
    Option F :=
  (jAsStr (jIndex item name)).bind pf

/-- Fields 1-5 of a record: `symbol` and the first four numeric strings. -/
def recPartA {F : Type} (pf : String → Option F) (item : JValue) :
    Option (String × F × F × F × F) := do
  let symbol ← jAsStr (jIndex item fSymbol)
  let priceChange ← numField pf item fPriceChange
  let priceChangePercent ← numField pf item fPriceChangePercent
  let lastPrice ← numField pf item fLastPrice
  let lastQty ← numField pf item fLastQty
  pure (symbol, priceChange, priceChangePercent, lastPrice, lastQty)

/-- Fields 6-10 of a record: the `open` through `amount` numeric strings. -/
def recPartB {F : Type} (pf : String → Option F) (item : JValue) :
    Option (F × F × F × F × F) := do
  let openV ← numField pf item fOpen
  let highV ← numField pf item fHigh
  let lowV ← numField pf item fLow
  let volumeV ← numField pf item fVolume
  let amountV ← numField pf item fAmount
  pure (openV, highV, lowV, volumeV, amountV)

/-- The remaining numeric strings: both quotes and both option prices. -/
def recPartC {F : Type} (pf : String → Option F) (item : JValue) :
    Option (F × F × F × F) := do
  let bidPrice ← numField pf item fBidPrice
  let askPrice ← numField pf item fAskPrice
  let strikePrice ← numField pf item fStrikePrice
  let exercisePrice ← numField pf item fExercisePrice
  pure (bidPrice, askPrice, strikePrice, exercisePrice)

/-- The four unsigned-integer fields. -/
def recPartD (item : JValue) : Option (Nat × Nat × Nat × Nat) := do
  let openTime ← jAsU64 (jIndex item fOpenTime)
  let closeTime ← jAsU64 (jIndex item fCloseTime)
  let firstTradeId ← jAsU64 (jIndex item fFirstTradeId)
  let tradeCount ← jAsU64 (jIndex item fTradeCount)
  pure (openTime, closeTime, firstTradeId, tradeCount)

/-- The eighteen-field extraction of one record (parser.rs lines 32-76).
Rust evaluates all eighteen options and matches the tuple against all-`Some`;
with no effects involved that equals this grouped sequential bind: the record
is produced exactly when every field extraction succeeds, with those values. -/
def codeRecord {F : Type} (pf : String → Option F) (item : JValue) :
    Option (InstrumentStats F) := do
  let a ← recPartA pf item
  let b ← recPartB pf item
  let c ← recPartC pf item
  let d ← recPartD item
  pure { symbol := a.1, price_change := a.2.1,
         price_change_percent := a.2.2.1, last_price := a.2.2.2.1,
         last_qty := a.2.2.2.2, open_ := b.1, high := b.2.1, low := b.2.2.1,
         volume := b.2.2.2.1, amount := b.2.2.2.2, bid_price := c.1,
         ask_price := c.2.1, open_time := d.1, close_time := d.2.1,
         first_trade_id := d.2.2.1, trade_count := d.2.2.2,
         strike_price := c.2.2.1, exercise_price := c.2.2.2 }

/-- `parse_instrument_stats` (parser.rs lines 27-81): iterate the array,
pushing each successfully extracted record; a non-array input yields the
empty vector. -/
def parse_instrument_stats {F : Type} (pf : String → Option F) (data : JValue) :
    List (InstrumentStats F) :=
  match jAsArr data with
  | some items =>
    items.foldl (fun acc item => acc ++ (codeRecord pf item).toList) []
  | none => []

/-- Claim C8's validity condition on one element, by its own words: all
eighteen required fields present and of the expected shape — `symbol` a
string, the numeric-string fields strings that parse, the four time and
count fields unsigned integers. -/
def recordOk {F : Type} (pf : String → Option F) (item : JValue) : Bool :=
  (jAsStr (jIndex item fSymbol)).isSome &&
  (numField pf item fPriceChange).isSome &&
  (numField pf item fPriceChangePercent).isSome &&
  (numField pf item fLastPrice).isSome &&
  (numField pf item fLastQty).isSome &&
  (numField pf item fOpen).isSome &&
  (numField pf item fHigh).isSome &&
  (numField pf item fLow).isSome &&
  (numField pf item fVolume).isSome &&
  (numField pf item fAmount).isSome &&
  (numField pf item fBidPrice).isSome &&
  (numField pf item fAskPrice).isSome &&
  (jAsU64 (jIndex item fOpenTime)).isSome &&
  (jAsU64 (jIndex item fCloseTime)).isSome &&
  (jAsU64 (jIndex item fFirstTradeId)).isSome &&
  (jAsU64 (jIndex item fTradeCount)).isSome &&
  (numField pf item fStrikePrice).isSome &&
  (numField pf item fExercisePrice).isSome

/-!
Predicates and concrete inputs used by the statements below.
-/

/-- A degenerate but perfectly legal `DefaultHasher` stand-in for concrete
runs: every byte-sequence key hashes to `0` (the contract requires only
determinism, which any function gives). -/
def hf0 : List Nat → Nat := fun _ => 0

/-- The same for string keys. -/
def sf0 : String → Nat := fun _ => 0

def kA : String := "a"

def kB : String := "b"

/-- Slot `j` is occupied by an entry that does not match `key`. -/
def misAt (st : ArrayHashTable) (key : List Nat) (j : Nat) : Prop :=
  ∃ e, st.table j = some e ∧ slotMatches e key = false

/-- Every slot of the table is occupied by a non-matching entry. -/
def AllMismatch (st : ArrayHashTable) (key : List Nat) : Prop :=
  ∀ j < CAPACITY, misAt st key j

/-- No slot of the table is occupied. -/
def allEmpty (st : ArrayHashTable) : Prop :=
  ∀ i < CAPACITY, st.table i = none

/-- Claim C7's endpoint invariant: `first` and `last` are `None` exactly on
the empty table, and otherwise each points at an occupied slot. -/
def ArrayInv (st : ArrayHashTable) : Prop :=
  (st.first = none ↔ allEmpty st) ∧ (st.last = none ↔ allEmpty st) ∧
  (∀ j, st.first = some j → j < CAPACITY ∧ (st.table j).isSome = true) ∧
  (∀ j, st.last = some j → j < CAPACITY ∧ (st.table j).isSome = true)

/-- The number of occupied slots. -/
def occ (st : ArrayHashTable) : Nat :=
  ((Finset.range CAPACITY).filter fun i => (st.table i).isSome = true).card

/-- Some slot holds an entry matching `key`. -/
def containsKey (st : ArrayHashTable) (key : List Nat) : Prop :=
  ∃ j < CAPACITY, ∃ e, st.table j = some e ∧ slotMatches e key = true

/-- Whether inserting the listed pairs one by one succeeds at every step. -/
def insertAllOkA (hf : List Nat → Nat) : ArrayHashTable → List (List Nat × Int) → Bool
  | _, [] => true
  | st, (k, v) :: rest =>
    match ArrayHashTable.insert hf st k v with
    | (.ok, st2) => insertAllOkA hf st2 rest
    | _ => false

/-- The table after inserting the listed pairs one by one. -/
def insertAllA (hf : List Nat → Nat) (st : ArrayHashTable)
    (l : List (List Nat × Int)) : ArrayHashTable :=
  l.foldl (fun s kv => (ArrayHashTable.insert hf s kv.1 kv.2).2) st

/-- A table whose `CAPACITY` slots are all occupied, slot `i` by the
one-byte key `[i]` — the shape the repository's own capacity test builds. -/
def fullMismatchTable : ArrayHashTable :=
  { table := fun i => if i < CAPACITY then some ⟨padded_copy [i], 1, 0⟩ else none,
    first := some 0, last := some (CAPACITY - 1) }

/-- A key stored in no slot of `fullMismatchTable` (its length alone rules a
match out). -/
def missingKey : List Nat := [1, 2, 3]

/-- The entry slot `i` of `fullMismatchTable` holds. -/
def c1Entry (i : Nat) : AEntry := ⟨padded_copy [i], 1, 0⟩

/-- The table after the first `m` inserts of the filling run: slots
`0..m-1` occupied in order, `first` on slot 0 and `last` on slot `m-1`. -/
def c1Partial (m : Nat) : ArrayHashTable :=
  { table := fun i => if i < m then some (c1Entry i) else none,
    first := if m = 0 then none else some 0,
    last := if m = 0 then none else some (m - 1) }

/-- The filling run itself: insert the one-byte keys `[0], [1], …` in order
(under `hf0` they all probe from slot 0, exactly like the repository's own
`test_insert_over_capacity` under its real hasher). -/
def c1Ops (m : Nat) : List AOp := (List.range m).map fun i => AOp.ins [i] 0

/-!
Basic facts: the capacity is positive, probe indices stay in range, the probe
sequence of length `CAPACITY` visits every slot exactly once, and a stored
padded key compares as the original key bytes.
-/

theorem CAPACITY_pos : 0 < CAPACITY := by decide

theorem hash_lt (hf : List Nat → Nat) (key : List Nat) :
    ArrayHashTable.hash hf key < CAPACITY :=
  Nat.mod_lt _ CAPACITY_pos

theorem probe_step_lt {c idx : Nat} (h : idx < c) : (idx + 1) % c < c :=
  Nat.mod_lt _ (by omega)

theorem add_mod_explicit {c r u : Nat} (hr : r < c) (hu : u < c) :
    (r + u) % c = if r + u < c then r + u else r + u - c := by
  split
  · exact Nat.mod_eq_of_lt (by assumption)
  · have h1 : r + u ≥ c := by omega
    rw [Nat.mod_eq_sub_mod h1]
    exact Nat.mod_eq_of_lt (by omega)

theorem probe_inj {c idx u t : Nat} (hu : u < c) (ht : t < c)
    (h : (idx + u) % c = (idx + t) % c) : u = t := by
  have hc : 0 < c := by omega
  have hr : idx % c < c := Nat.mod_lt _ hc
  have e1 : (idx % c + u) % c = (idx % c + t) % c := by
    rw [Nat.mod_add_mod, Nat.mod_add_mod]; exact h
  rw [add_mod_explicit hr hu, add_mod_explicit hr ht] at e1
  split at e1 <;> split at e1 <;> omega

theorem probe_cover {c idx j : Nat} (hidx : idx < c) (hj : j < c) :
    ∃ t < c, (idx + t) % c = j := by
  rcases le_or_lt idx j with h | h
  · refine ⟨j - idx, by omega, ?_⟩
    have : idx + (j - idx) = j := by omega
    rw [this]; exact Nat.mod_eq_of_lt hj
  · refine ⟨c + j - idx, by omega, ?_⟩
    have : idx + (c + j - idx) = c + j := by omega
    rw [this, Nat.add_mod_left]; exact Nat.mod_eq_of_lt hj

theorem probe_shift {c idx u : Nat} : ((idx + 1) % c + u) % c = (idx + (u + 1)) % c := by
  rw [Nat.mod_add_mod]; congr 1; omega

theorem take_padded (k : List Nat) : (padded_copy k).take k.length = k :=
  List.take_left k _

theorem slotMatches_padded (k k2 : List Nat) (v : Int) :
    slotMatches ⟨padded_copy k, k.length, v⟩ k2 = (k == k2) := by
  simp only [slotMatches, take_padded]

/-!
The probe loops of the array table.  `getLoop`/`removeLoop` never return on a
table whose every slot holds a non-matching entry; `insertLoop` returns `Full`
exactly when its whole probe window is occupied by non-matching entries, and
on success writes the padded entry at the first free or matching slot of the
window.
-/

theorem getLoop_stuck {st : ArrayHashTable} {key : List Nat}
    (h : AllMismatch st key) :
    ∀ fuel idx, idx < CAPACITY → ArrayHashTable.getLoop key fuel idx st = none := by
  intro fuel
  induction fuel with
  | zero => intro idx _; rfl
  | succ n ih =>
    intro idx hidx
    obtain ⟨e, he, hm⟩ := h idx hidx
    simp only [ArrayHashTable.getLoop, he, hm, Bool.false_eq_true, if_false]
    exact ih _ (probe_step_lt hidx)

theorem removeLoop_stuck {st : ArrayHashTable} {key : List Nat}
    (h : AllMismatch st key) :
    ∀ fuel idx, idx < CAPACITY → ArrayHashTable.removeLoop key fuel idx st = none := by
  intro fuel
  induction fuel with
  | zero => intro idx _; rfl
  | succ n ih =>
    intro idx hidx
    obtain ⟨e, he, hm⟩ := h idx hidx
    simp only [ArrayHashTable.removeLoop, he, hm, Bool.false_eq_true, if_false]
    exact ih _ (probe_step_lt hidx)

theorem fullMismatchTable_allMismatch : AllMismatch fullMismatchTable missingKey := by
  intro j hj
  refine ⟨⟨padded_copy [j], 1, 0⟩, by simp [fullMismatchTable, hj], ?_⟩
  have h1 : slotMatches ⟨padded_copy [j], 1, 0⟩ missingKey = ([j] == missingKey) := by
    have := slotMatches_padded [j] missingKey 0
    simpa using this
  rw [h1, beq_eq_false_iff_ne]
  intro h
  have := congrArg List.length h
  simp [missingKey] at this

theorem insertLoop_ne_keyTooLong (pk key : List Nat) (kl : Nat) (v : Int) :
    ∀ fuel idx st, (ArrayHashTable.insertLoop pk kl key v fuel idx st).1 ≠ .keyTooLong := by
  intro fuel
  induction fuel with
  | zero => intro idx st h; exact absurd h (by simp [ArrayHashTable.insertLoop])
  | succ n ih =>
    intro idx st
    simp only [ArrayHashTable.insertLoop]
    cases h : st.table idx with
    | none => simp
    | some e =>
      by_cases hm : slotMatches e key
      · simp [hm]
      · simp only [hm, Bool.false_eq_true, if_false]
        exact ih _ _

theorem insertLoop_full_elim (pk key : List Nat) (kl : Nat) (v : Int) :
    ∀ fuel idx st st2, idx < CAPACITY →
      ArrayHashTable.insertLoop pk kl key v fuel idx st = (.full, st2) →
      st2 = st ∧ ∀ t < fuel, misAt st key ((idx + t) % CAPACITY) := by
  intro fuel
  induction fuel with
  | zero =>
    intro idx st st2 _ h
    refine ⟨?_, by omega⟩
    simpa [ArrayHashTable.insertLoop] using congrArg Prod.snd h |>.symm
  | succ n ih =>
    intro idx st st2 hidx h
    simp only [ArrayHashTable.insertLoop] at h
    cases he : st.table idx with
    | none => simp only [he] at h; exact absurd (congrArg Prod.fst h) (by simp)
    | some e =>
      simp only [he] at h
      by_cases hm : slotMatches e key
      · rw [if_pos hm] at h; exact absurd (congrArg Prod.fst h) (by simp)
      · rw [if_neg hm] at h
        obtain ⟨h1, h2⟩ := ih _ _ _ (probe_step_lt hidx) h
        refine ⟨h1, ?_⟩
        intro t ht
        cases t with
        | zero =>
          rw [Nat.add_zero, Nat.mod_eq_of_lt hidx]
          exact ⟨e, he, Bool.eq_false_iff.mpr hm⟩
        | succ u =>
          have := h2 u (by omega)
          rwa [probe_shift] at this

theorem insertLoop_full_intro (pk key : List Nat) (kl : Nat) (v : Int)
    {st : ArrayHashTable} (h : AllMismatch st key) :
    ∀ fuel idx, idx < CAPACITY →
      ArrayHashTable.insertLoop pk kl key v fuel idx st = (.full, st) := by
  intro fuel
  induction fuel with
  | zero => intro idx _; rfl
  | succ n ih =>
    intro idx hidx
    obtain ⟨e, he, hm⟩ := h idx hidx
    simp only [ArrayHashTable.insertLoop, he, hm, Bool.false_eq_true, if_false]
    exact ih _ (probe_step_lt hidx)

theorem insertLoop_ok_elim (pk key : List Nat) (kl : Nat) (v : Int) :
    ∀ fuel idx st st2, idx < CAPACITY →
      ArrayHashTable.insertLoop pk kl key v fuel idx st = (.ok, st2) →
      ∃ t, t < fuel ∧ (∀ u < t, misAt st key ((idx + u) % CAPACITY)) ∧
        (idx + t) % CAPACITY < CAPACITY ∧
        st2.table = writeSlot st.table ((idx + t) % CAPACITY) ⟨pk, kl, v⟩ ∧
        st2.last = some ((idx + t) % CAPACITY) ∧
        ((st.table ((idx + t) % CAPACITY) = none ∧
          st2.first = (if st.first = none then some ((idx + t) % CAPACITY) else st.first)) ∨
         (∃ e, st.table ((idx + t) % CAPACITY) = some e ∧ slotMatches e key = true ∧
          st2.first = st.first)) := by
  intro fuel
  induction fuel with
  | zero =>
    intro idx st st2 _ h
    exact absurd (congrArg Prod.fst h) (by simp [ArrayHashTable.insertLoop])
  | succ n ih =>
    intro idx st st2 hidx h
    simp only [ArrayHashTable.insertLoop] at h
    cases he : st.table idx with
    | none =>
      simp only [he] at h
      replace h := (Prod.mk.injEq _ _ _ _).mp h |>.2
      refine ⟨0, by omega, by omega, ?_⟩
      rw [Nat.add_zero, Nat.mod_eq_of_lt hidx]
      exact ⟨hidx, by rw [← h], by rw [← h], Or.inl ⟨he, by rw [← h]⟩⟩
    | some e =>
      simp only [he] at h
      by_cases hm : slotMatches e key
      · rw [if_pos hm] at h
        replace h := (Prod.mk.injEq _ _ _ _).mp h |>.2
        refine ⟨0, by omega, by omega, ?_⟩
        rw [Nat.add_zero, Nat.mod_eq_of_lt hidx]
        exact ⟨hidx, by rw [← h], by rw [← h], Or.inr ⟨e, he, hm, by rw [← h]⟩⟩
      · rw [if_neg hm] at h
        obtain ⟨t, ht, hpre, hlt, htab, hlast, hfst⟩ :=
          ih _ _ _ (probe_step_lt hidx) h
        rw [probe_shift] at hlt htab hlast hfst
        refine ⟨t + 1, by omega, ?_, hlt, htab, hlast, hfst⟩
        intro u hu
        cases u with
        | zero =>
          rw [Nat.add_zero, Nat.mod_eq_of_lt hidx]
          exact ⟨e, he, Bool.eq_false_iff.mpr hm⟩
        | succ u' =>
          have := hpre u' (by omega)
          rwa [probe_shift] at this

theorem getLoop_follows {st : ArrayHashTable} {key : List Nat} {e : AEntry} :
    ∀ t fuel idx, idx < CAPACITY → t < fuel →
      (∀ u < t, misAt st key ((idx + u) % CAPACITY)) →
      st.table ((idx + t) % CAPACITY) = some e → slotMatches e key = true →
      ArrayHashTable.getLoop key fuel idx st = some (some e.val) := by
  intro t
  induction t with
  | zero =>
    intro fuel idx hidx hf _ hslot hm
    cases fuel with
    | zero => omega
    | succ n =>
      rw [Nat.add_zero, Nat.mod_eq_of_lt hidx] at hslot
      simp [ArrayHashTable.getLoop, hslot, hm]
  | succ t' ih =>
    intro fuel idx hidx hf hpre hslot hm
    cases fuel with
    | zero => omega
    | succ n =>
      obtain ⟨e0, he0, hm0⟩ := by
        have := hpre 0 (by omega)
        rwa [Nat.add_zero, Nat.mod_eq_of_lt hidx] at this
      simp only [ArrayHashTable.getLoop, he0, hm0, Bool.false_eq_true, if_false]
      refine ih n _ (probe_step_lt hidx) (by omega) ?_ ?_ hm
      · intro u hu
        have := hpre (u + 1) (by omega)
        rwa [← probe_shift] at this
      · rwa [← probe_shift] at hslot

theorem insert_keyTooLong_iff (hf : List Nat → Nat) (st : ArrayHashTable)
    (key : List Nat) (v : Int) :
    (ArrayHashTable.insert hf st key v).1 = .keyTooLong ↔ MAX_KEY_LEN < key.length := by
  constructor
  · intro h
    by_contra hl
    rw [ArrayHashTable.insert, if_neg hl] at h
    exact insertLoop_ne_keyTooLong _ _ _ _ _ _ _ h
  · intro h
    rw [ArrayHashTable.insert, if_pos h]

/-- Claim C6: `ArrayHashTable::insert` fails with `KeyTooLong` exactly on
keys longer than `MAX_KEY_LEN`; on such a key it fails before probing,
returning the table untouched whatever its contents; and a key of exactly
`MAX_KEY_LEN` bytes passes the length guard, its insert ending `Ok` or
`Full` only. -/
theorem key_length_boundary (hf : List Nat → Nat) (st : ArrayHashTable)
    (key : List Nat) (v : Int) :
    ((ArrayHashTable.insert hf st key v).1 = .keyTooLong ↔ MAX_KEY_LEN < key.length) ∧
    (MAX_KEY_LEN < key.length → ArrayHashTable.insert hf st key v = (.keyTooLong, st)) ∧
    (key.length = MAX_KEY_LEN →
      (ArrayHashTable.insert hf st key v).1 = .ok ∨
      (ArrayHashTable.insert hf st key v).1 = .full) := by
  refine ⟨insert_keyTooLong_iff hf st key v, ?_, ?_⟩
  · intro h
    rw [ArrayHashTable.insert, if_pos h]
  · intro h
    cases hr : (ArrayHashTable.insert hf st key v).1 with
    | ok => exact Or.inl rfl
    | full => exact Or.inr rfl
    | keyTooLong =>
      have := (insert_keyTooLong_iff hf st key v).mp hr
      omega

/-- Witness: a 31-byte key is rejected with the table untouched, and a 30-byte
key passes the guard. -/
theorem key_length_boundary_witness :
    (ArrayHashTable.insert hf0 ArrayHashTable.new (List.replicate 31 0) 7 =
      (.keyTooLong, ArrayHashTable.new)) ∧
    ((ArrayHashTable.insert hf0 ArrayHashTable.new (List.replicate 30 0) 7).1 = .ok ∨
     (ArrayHashTable.insert hf0 ArrayHashTable.new (List.replicate 30 0) 7).1 = .full) :=
  ⟨(key_length_boundary hf0 ArrayHashTable.new (List.replicate 31 0) 7).2.1 (by decide),
   (key_length_boundary hf0 ArrayHashTable.new (List.replicate 30 0) 7).2.2 (by decide)⟩

theorem array_insert_fail_unchanged (hf : List Nat → Nat) (st : ArrayHashTable)
    (key : List Nat) (v : Int) (h : (ArrayHashTable.insert hf st key v).1 ≠ .ok) :
    (ArrayHashTable.insert hf st key v).2 = st := by
  by_cases hl : MAX_KEY_LEN < key.length
  · rw [ArrayHashTable.insert, if_pos hl]
  · rw [ArrayHashTable.insert, if_neg hl] at h ⊢
    rcases hres : ArrayHashTable.insertLoop (padded_copy key) key.length key v
      CAPACITY (ArrayHashTable.hash hf key) st with ⟨r, st2⟩
    rw [hres] at h
    cases r with
    | ok => exact absurd rfl h
    | full =>
      exact (insertLoop_full_elim _ _ _ _ _ _ _ _ (hash_lt hf key) hres).1
    | keyTooLong =>
      have := insertLoop_ne_keyTooLong (padded_copy key) key key.length v
        CAPACITY (ArrayHashTable.hash hf key) st
      rw [hres] at this
      exact absurd rfl this

theorem vInsertLoop_not_ok (key : String) (v : Int) :
    ∀ fuel idx st r st2, VectorHashTable.insertLoop key v fuel idx st = some (r, st2) →
      r ≠ .ok → st2 = st := by
  intro fuel
  induction fuel with
  | zero =>
    intro idx st r st2 h _
    simp only [VectorHashTable.insertLoop, Option.some.injEq, Prod.mk.injEq] at h
    exact h.2.symm
  | succ n ih =>
    intro idx st r st2 h hne
    simp only [VectorHashTable.insertLoop] at h
    cases he : st.table[idx]? with
    | none => simp [he] at h
    | some a =>
      cases a with
      | none =>
        simp only [he, Option.some.injEq, Prod.mk.injEq] at h
        exact absurd h.1.symm hne
      | some p =>
        obtain ⟨k2, v2⟩ := p
        simp only [he] at h
        by_cases hm : k2 = key
        · rw [if_pos hm] at h
          simp only [Option.some.injEq, Prod.mk.injEq] at h
          exact absurd h.1.symm hne
        · rw [if_neg hm] at h
          exact ih _ _ _ _ h hne

theorem vector_insert_fail_unchanged (hf : String → Nat) (st : VectorHashTable)
    (key : String) (v : Int) (r : InsertResult) (st2 : VectorHashTable)
    (h : VectorHashTable.insert hf st key v = some (r, st2)) (hne : r ≠ .ok) :
    st2 = st := by
  rw [VectorHashTable.insert, VectorHashTable.hash] at h
  by_cases hc : st.capacity = 0
  · rw [if_pos hc] at h; simp at h
  · rw [if_neg hc] at h
    exact vInsertLoop_not_ok key v _ _ _ _ _ h hne

theorem hm_insert_fail_unchanged (st : HashMapHashTable) (key : String) (v : Int)
    (h : (HashMapHashTable.insert st key v).1 ≠ .ok) :
    (HashMapHashTable.insert st key v).2 = st := by
  rw [HashMapHashTable.insert] at h ⊢
  by_cases h1 : mapContains st.map key
  · rw [if_pos h1] at h; exact absurd rfl h
  · rw [if_neg h1] at h ⊢
    by_cases h2 : st.map.length = st.capacity
    · rw [if_pos h2]
    · rw [if_neg h2] at h; exact absurd rfl h

/-!
Totality of the vector table's probe loops on well-formed tables: whenever the
backing vector has exactly `capacity` slots and the probe index is in range,
no loop ever reads out of bounds, so (`capacity ≥ 1`) no operation panics.
-/

theorem vInsertLoop_total (key : String) (v : Int) :
    ∀ fuel idx st, idx < st.capacity → st.table.length = st.capacity →
      ∃ r st2, VectorHashTable.insertLoop key v fuel idx st = some (r, st2) ∧
        st2.capacity = st.capacity ∧ st2.table.length = st.table.length := by
  intro fuel
  induction fuel with
  | zero => intro idx st _ _; exact ⟨.full, st, rfl, rfl, rfl⟩
  | succ n ih =>
    intro idx st hidx hlen
    have hlt : idx < st.table.length := by omega
    cases he : st.table[idx]? with
    | none =>
      rw [List.getElem?_eq_none_iff] at he
      omega
    | some a =>
      cases a with
      | none =>
        simp only [VectorHashTable.insertLoop, he]
        exact ⟨.ok, _, rfl, rfl, by simp⟩
      | some p =>
        obtain ⟨k2, v2⟩ := p
        simp only [VectorHashTable.insertLoop, he]
        by_cases hm : k2 = key
        · rw [if_pos hm]
          exact ⟨.ok, _, rfl, rfl, by simp⟩
        · rw [if_neg hm]
          exact ih _ _ (probe_step_lt hidx) hlen

theorem vGetLoop_total (key : String) :
    ∀ fuel idx st, idx < st.capacity → st.table.length = st.capacity →
      ∃ r, VectorHashTable.getLoop key fuel idx st = some r := by
  intro fuel
  induction fuel with
  | zero => intro idx st _ _; exact ⟨none, rfl⟩
  | succ n ih =>
    intro idx st hidx hlen
    have hlt : idx < st.table.length := by omega
    cases he : st.table[idx]? with
    | none =>
      rw [List.getElem?_eq_none_iff] at he
      omega
    | some a =>
      cases a with
      | none =>
        simp only [VectorHashTable.getLoop, he]
        exact ⟨none, rfl⟩
      | some p =>
        obtain ⟨k2, v2⟩ := p
        simp only [VectorHashTable.getLoop, he]
        by_cases hm : k2 = key
        · rw [if_pos hm]; exact ⟨some v2, rfl⟩
        · rw [if_neg hm]; exact ih _ _ (probe_step_lt hidx) hlen

theorem vRemoveLoop_total (key : String) :
    ∀ fuel idx st, idx < st.capacity → st.table.length = st.capacity →
      ∃ st2, VectorHashTable.removeLoop key fuel idx st = some st2 ∧
        st2.capacity = st.capacity ∧ st2.table.length = st.table.length := by
  intro fuel
  induction fuel with
  | zero => intro idx st _ _; exact ⟨st, rfl, rfl, rfl⟩
  | succ n ih =>
    intro idx st hidx hlen
    have hlt : idx < st.table.length := by omega
    cases he : st.table[idx]? with
    | none =>
      rw [List.getElem?_eq_none_iff] at he
      omega
    | some a =>
      cases a with
      | none =>
        simp only [VectorHashTable.removeLoop, he]
        exact ⟨st, rfl, rfl, rfl⟩
      | some p =>
        obtain ⟨k2, v2⟩ := p
        simp only [VectorHashTable.removeLoop, he]
        by_cases hm : k2 = key
        · rw [if_pos hm]
          exact ⟨_, rfl, rfl, by simp⟩
        · rw [if_neg hm]
          exact ih _ _ (probe_step_lt hidx) hlen

theorem vApplyOp_total (hf : String → Nat) (st : VectorHashTable) (op : VOp)
    (hc : 0 < st.capacity) (hlen : st.table.length = st.capacity) :
    ∃ st2, VectorHashTable.applyOp hf st op = some st2 ∧
      st2.capacity = st.capacity ∧ st2.table.length = st2.capacity := by
  have hne : ¬ st.capacity = 0 := by omega
  cases op with
  | ins k v =>
    have hidx : hf k % st.capacity < st.capacity := Nat.mod_lt _ hc
    obtain ⟨r, st2, h1, h2, h3⟩ := vInsertLoop_total k v st.capacity _ st hidx hlen
    refine ⟨st2, ?_, h2, by omega⟩
    simp [VectorHashTable.applyOp, VectorHashTable.insert, VectorHashTable.hash, hne, h1]
  | rem k =>
    have hidx : hf k % st.capacity < st.capacity := Nat.mod_lt _ hc
    obtain ⟨st2, h1, h2, h3⟩ := vRemoveLoop_total k st.capacity _ st hidx hlen
    refine ⟨st2, ?_, h2, by omega⟩
    simp [VectorHashTable.applyOp, VectorHashTable.remove, VectorHashTable.hash, hne, h1]
  | getOp k =>
    have hidx : hf k % st.capacity < st.capacity := Nat.mod_lt _ hc
    obtain ⟨r, h1⟩ := vGetLoop_total k st.capacity _ st hidx hlen
    refine ⟨st, ?_, rfl, by omega⟩
    simp [VectorHashTable.applyOp, VectorHashTable.get, VectorHashTable.hash, hne, h1]

theorem vFold_total (hf : String → Nat) :
    ∀ (ops : List VOp) (st : VectorHashTable), 0 < st.capacity →
      st.table.length = st.capacity →
      ∃ st2, ops.foldl (fun acc op => acc.bind fun s => VectorHashTable.applyOp hf s op)
          (some st) = some st2 ∧ st2.capacity = st.capacity ∧
        st2.table.length = st2.capacity := by
  intro ops
  induction ops with
  | nil => intro st hc hlen; exact ⟨st, rfl, rfl, by omega⟩
  | cons op rest ih =>
    intro st hc hlen
    obtain ⟨st2, h1, h2, h3⟩ := vApplyOp_total hf st op hc hlen
    obtain ⟨st3, h4, h5, h6⟩ := ih st2 (by omega) h3
    refine ⟨st3, ?_, by omega, h6⟩
    rw [List.foldl_cons]
    show rest.foldl _ (VectorHashTable.applyOp hf st op) = some st3
    rw [h1]
    exact h4

/-- Claim C9: a `VectorHashTable` built by `new(capacity)` with
`capacity ≥ 1` never panics on any sequence of insert, get and remove calls;
with `capacity = 0`, every insert, get and remove call panics, because
`hash` reduces the hash value modulo the capacity. -/
theorem vector_panic_characterization (hf : String → Nat) :
    (∀ st (key : String) (v : Int), st.capacity = 0 →
      VectorHashTable.insert hf st key v = none ∧
      VectorHashTable.get hf st key = none ∧
      VectorHashTable.remove hf st key = none) ∧
    (∀ cap ops, 0 < cap → (VectorHashTable.runOps hf cap ops).isSome = true) := by
  constructor
  · intro st key v hc
    refine ⟨?_, ?_, ?_⟩ <;>
      simp [VectorHashTable.insert, VectorHashTable.get, VectorHashTable.remove,
        VectorHashTable.hash, hc]
  · intro cap ops hc
    obtain ⟨st2, h1, _, _⟩ := vFold_total hf ops (VectorHashTable.new cap)
      (by simpa [VectorHashTable.new] using hc) (by simp [VectorHashTable.new])
    rw [VectorHashTable.runOps, h1]
    rfl

/-- Witness for C9: the zero-capacity table panics on a concrete insert, and
a capacity-1 table survives a concrete insert-get-remove run. -/
theorem vector_panic_characterization_witness :
    VectorHashTable.insert sf0 (VectorHashTable.new 0) kA 1 = none ∧
    (VectorHashTable.runOps sf0 1 [VOp.ins kA 1, VOp.getOp kA, VOp.rem kA]).isSome = true :=
  ⟨((vector_panic_characterization sf0).1 (VectorHashTable.new 0) kA 1 rfl).1,
   (vector_panic_characterization sf0).2 1 [VOp.ins kA 1, VOp.getOp kA, VOp.rem kA]
     (by decide)⟩

/-- Claim C5, amended (corrected record): an insert that fails — `Full` or
`KeyTooLong` — leaves every slot, both endpoint pointers and all bookkeeping
of each of the three tables exactly as before the call, reporting the failure
as an ordinary result value; and the `VectorHashTable` never panics once its
capacity is at least 1.  (The unamended "never panics" is refuted by the
zero-capacity vector table, whose every insert panics on `% 0`.) -/
theorem atomicity_amended :
    (∀ (hf : List Nat → Nat) (st : ArrayHashTable) (key : List Nat) (v : Int),
      (ArrayHashTable.insert hf st key v).1 ≠ .ok →
      (ArrayHashTable.insert hf st key v).2 = st) ∧
    (∀ (hf : String → Nat) (st : VectorHashTable) (key : String) (v : Int) r st2,
      VectorHashTable.insert hf st key v = some (r, st2) → r ≠ .ok → st2 = st) ∧
    (∀ (st : HashMapHashTable) (key : String) (v : Int),
      (HashMapHashTable.insert st key v).1 ≠ .ok →
      (HashMapHashTable.insert st key v).2 = st) ∧
    (∀ (hf : String → Nat) (cap : Nat) (ops : List VOp), 0 < cap →
      (VectorHashTable.runOps hf cap ops).isSome = true) :=
  ⟨array_insert_fail_unchanged,
   fun hf st key v r st2 h hne => vector_insert_fail_unchanged hf st key v r st2 h hne,
   hm_insert_fail_unchanged,
   fun hf => (vector_panic_characterization hf).2⟩

/-- The zero-capacity vector table panics (models as `none`) on a concrete
insert: the unamended "failures are reported as ordinary result values, never
panics" is false. -/
theorem zero_capacity_panic_counterexample :
    VectorHashTable.insert sf0 (VectorHashTable.new 0) kA 1 = none := by decide

/-- Witness for C5: concrete failed inserts leave the array and map tables
untouched. -/
theorem atomicity_amended_witness :
    (ArrayHashTable.insert hf0 ArrayHashTable.new (List.replicate 31 0) 3).2
      = ArrayHashTable.new ∧
    (HashMapHashTable.insert (HashMapHashTable.new 0) kA 1).2 = HashMapHashTable.new 0 :=
  ⟨atomicity_amended.1 hf0 ArrayHashTable.new (List.replicate 31 0) 3 (by decide),
   atomicity_amended.2.2.1 (HashMapHashTable.new 0) kA 1 (by decide)⟩

/-!
The ingester: the push loop is a `filterMap`, a record is extracted exactly
when the claim's eighteen-fold validity condition holds, and every extracted
field comes from its named input field.
-/

theorem foldPush_eq_filterMap {α β : Type} (f : α → Option β) :
    ∀ (l : List α) (acc : List β),
      l.foldl (fun acc x => acc ++ (f x).toList) acc = acc ++ l.filterMap f := by
  intro l
  induction l with
  | nil => intro acc; simp
  | cons x rest ih =>
    intro acc
    rw [List.foldl_cons, List.filterMap_cons]
    cases f x with
    | none => rw [ih]; simp
    | some s => rw [ih]; simp

theorem recPartA_isSome {F : Type} (pf : String → Option F) (item : JValue) :
    (recPartA pf item).isSome =
      ((jAsStr (jIndex item fSymbol)).isSome &&
       (numField pf item fPriceChange).isSome &&
       (numField pf item fPriceChangePercent).isSome &&
       (numField pf item fLastPrice).isSome &&
       (numField pf item fLastQty).isSome) := by
  unfold recPartA
  cases jAsStr (jIndex item fSymbol) <;>
    cases numField pf item fPriceChange <;>
    cases numField pf item fPriceChangePercent <;>
    cases numField pf item fLastPrice <;>
    cases numField pf item fLastQty <;> simp

theorem recPartB_isSome {F : Type} (pf : String → Option F) (item : JValue) :
    (recPartB pf item).isSome =
      ((numField pf item fOpen).isSome &&
       (numField pf item fHigh).isSome &&
       (numField pf item fLow).isSome &&
       (numField pf item fVolume).isSome &&
       (numField pf item fAmount).isSome) := by
  unfold recPartB
  cases numField pf item fOpen <;>
    cases numField pf item fHigh <;>
    cases numField pf item fLow <;>
    cases numField pf item fVolume <;>
    cases numField pf item fAmount <;> simp

theorem recPartC_isSome {F : Type} (pf : String → Option F) (item : JValue) :
    (recPartC pf item).isSome =
      ((numField pf item fBidPrice).isSome &&
       (numField pf item fAskPrice).isSome &&
       (numField pf item fStrikePrice).isSome &&
       (numField pf item fExercisePrice).isSome) := by
  unfold recPartC
  cases numField pf item fBidPrice <;>
    cases numField pf item fAskPrice <;>
    cases numField pf item fStrikePrice <;>
    cases numField pf item fExercisePrice <;> simp

theorem recPartD_isSome (item : JValue) :
    (recPartD item).isSome =
      ((jAsU64 (jIndex item fOpenTime)).isSome &&
       (jAsU64 (jIndex item fCloseTime)).isSome &&
       (jAsU64 (jIndex item fFirstTradeId)).isSome &&
       (jAsU64 (jIndex item fTradeCount)).isSome) := by
  unfold recPartD
  cases jAsU64 (jIndex item fOpenTime) <;>
    cases jAsU64 (jIndex item fCloseTime) <;>
    cases jAsU64 (jIndex item fFirstTradeId) <;>
    cases jAsU64 (jIndex item fTradeCount) <;> simp

theorem codeRecord_isSome_parts {F : Type} (pf : String → Option F)
    (item : JValue) :
    (codeRecord pf item).isSome =
      ((recPartA pf item).isSome && (recPartB pf item).isSome &&
       (recPartC pf item).isSome && (recPartD item).isSome) := by
  unfold codeRecord
  cases recPartA pf item <;>
    cases recPartB pf item <;>
    cases recPartC pf item <;>
    cases recPartD item <;> simp

theorem codeRecord_isSome_eq_recordOk {F : Type} (pf : String → Option F)
    (item : JValue) : (codeRecord pf item).isSome = recordOk pf item := by
  rw [codeRecord_isSome_parts, recPartA_isSome, recPartB_isSome,
    recPartC_isSome, recPartD_isSome, recordOk]
  rw [Bool.eq_iff_iff]
  simp only [Bool.and_eq_true]
  tauto

theorem recPartA_eq_some {F : Type} {pf : String → Option F} {item : JValue}
    {a : String × F × F × F × F} (h : recPartA pf item = some a) :
    jAsStr (jIndex item fSymbol) = some a.1 ∧
    numField pf item fPriceChange = some a.2.1 ∧
    numField pf item fPriceChangePercent = some a.2.2.1 ∧
    numField pf item fLastPrice = some a.2.2.2.1 ∧
    numField pf item fLastQty = some a.2.2.2.2 := by
  simp only [recPartA, Option.bind_eq_bind, Option.bind_eq_some, Option.pure_def, Option.some.injEq] at h
  obtain ⟨s, hs, x1, h1, x2, h2, x3, h3, x4, h4, heq⟩ := h
  subst heq
  exact ⟨hs, h1, h2, h3, h4⟩

theorem recPartB_eq_some {F : Type} {pf : String → Option F} {item : JValue}
    {b : F × F × F × F × F} (h : recPartB pf item = some b) :
    numField pf item fOpen = some b.1 ∧
    numField pf item fHigh = some b.2.1 ∧
    numField pf item fLow = some b.2.2.1 ∧
    numField pf item fVolume = some b.2.2.2.1 ∧
    numField pf item fAmount = some b.2.2.2.2 := by
  simp only [recPartB, Option.bind_eq_bind, Option.bind_eq_some, Option.pure_def, Option.some.injEq] at h
  obtain ⟨x0, h0, x1, h1, x2, h2, x3, h3, x4, h4, heq⟩ := h
  subst heq
  exact ⟨h0, h1, h2, h3, h4⟩

theorem recPartC_eq_some {F : Type} {pf : String → Option F} {item : JValue}
    {c : F × F × F × F} (h : recPartC pf item = some c) :
    numField pf item fBidPrice = some c.1 ∧
    numField pf item fAskPrice = some c.2.1 ∧
    numField pf item fStrikePrice = some c.2.2.1 ∧
    numField pf item fExercisePrice = some c.2.2.2 := by
  simp only [recPartC, Option.bind_eq_bind, Option.bind_eq_some, Option.pure_def, Option.some.injEq] at h
  obtain ⟨x0, h0, x1, h1, x2, h2, x3, h3, heq⟩ := h
  subst heq
  exact ⟨h0, h1, h2, h3⟩

theorem recPartD_eq_some {item : JValue} {d : Nat × Nat × Nat × Nat}
    (h : recPartD item = some d) :
    jAsU64 (jIndex item fOpenTime) = some d.1 ∧
    jAsU64 (jIndex item fCloseTime) = some d.2.1 ∧
    jAsU64 (jIndex item fFirstTradeId) = some d.2.2.1 ∧
    jAsU64 (jIndex item fTradeCount) = some d.2.2.2 := by
  simp only [recPartD, Option.bind_eq_bind, Option.bind_eq_some, Option.pure_def, Option.some.injEq] at h
  obtain ⟨x0, h0, x1, h1, x2, h2, x3, h3, heq⟩ := h
  subst heq
  exact ⟨h0, h1, h2, h3⟩

/-- Claim C8: `parse_instrument_stats` keeps exactly the elements of the
input array on which all eighteen required fields are present and of the
expected shape, one output record per such element, in input order and
nothing else (a non-array input gives the empty output); and every field of
an output record is read off the same-named field of its input element. -/
theorem parser_filters_valid_records {F : Type} (pf : String → Option F)
    (data : JValue) :
    parse_instrument_stats pf data =
      ((jAsArr data).getD []).filterMap (codeRecord pf) ∧
    (∀ item, (codeRecord pf item).isSome = recordOk pf item) ∧
    (∀ (item : JValue) (s : InstrumentStats F), codeRecord pf item = some s →
      jAsStr (jIndex item fSymbol) = some s.symbol ∧
      numField pf item fPriceChange = some s.price_change ∧
      numField pf item fPriceChangePercent = some s.price_change_percent ∧
      numField pf item fLastPrice = some s.last_price ∧
      numField pf item fLastQty = some s.last_qty ∧
      numField pf item fOpen = some s.open_ ∧
      numField pf item fHigh = some s.high ∧
      numField pf item fLow = some s.low ∧
      numField pf item fVolume = some s.volume ∧
      numField pf item fAmount = some s.amount ∧
      numField pf item fBidPrice = some s.bid_price ∧
      numField pf item fAskPrice = some s.ask_price ∧
      jAsU64 (jIndex item fOpenTime) = some s.open_time ∧
      jAsU64 (jIndex item fCloseTime) = some s.close_time ∧
      jAsU64 (jIndex item fFirstTradeId) = some s.first_trade_id ∧
      jAsU64 (jIndex item fTradeCount) = some s.trade_count ∧
      numField pf item fStrikePrice = some s.strike_price ∧
      numField pf item fExercisePrice = some s.exercise_price) := by
  refine ⟨?_, codeRecord_isSome_eq_recordOk pf, ?_⟩
  · cases h : jAsArr data with
    | none => simp [parse_instrument_stats, h]
    | some items =>
      simp only [parse_instrument_stats, h, Option.getD_some]
      have h2 := foldPush_eq_filterMap (codeRecord pf) items []
      rw [List.nil_append] at h2
      exact h2
  · intro item s h
    simp only [codeRecord, Option.bind_eq_bind, Option.bind_eq_some, Option.pure_def,
      Option.some.injEq] at h
    obtain ⟨a, ha, b, hb, c, hc, d, hd, heq⟩ := h
    obtain ⟨ha1, ha2, ha3, ha4, ha5⟩ := recPartA_eq_some ha
    obtain ⟨hb1, hb2, hb3, hb4, hb5⟩ := recPartB_eq_some hb
    obtain ⟨hc1, hc2, hc3, hc4⟩ := recPartC_eq_some hc
    obtain ⟨hd1, hd2, hd3, hd4⟩ := recPartD_eq_some hd
    subst heq
    exact ⟨ha1, ha2, ha3, ha4, ha5, hb1, hb2, hb3, hb4, hb5, hc1, hc2,
      hd1, hd2, hd3, hd4, hc3, hc4⟩

/-!
Probe chains of the vector table: a successful `get` sits at the end of a
chain of occupied, non-matching slots; a successful insert writes at the end
of such a chain (at a free slot or at the key's own slot); and a chain in the
pre-state survives an insert of a different key, which is what makes the
round trip stable under intervening inserts — though not under intervening
removals.
-/

theorem vGetLoop_elim (key : String) :
    ∀ fuel idx st v, idx < st.capacity →
      VectorHashTable.getLoop key fuel idx st = some (some v) →
      ∃ t, t < fuel ∧
        (∀ u < t, ∃ k2 v2,
          st.table[(idx + u) % st.capacity]? = some (some (k2, v2)) ∧ k2 ≠ key) ∧
        st.table[(idx + t) % st.capacity]? = some (some (key, v)) := by
  intro fuel
  induction fuel with
  | zero => intro idx st v _ h; simp [VectorHashTable.getLoop] at h
  | succ n ih =>
    intro idx st v hidx h
    cases he : st.table[idx]? with
    | none => simp [VectorHashTable.getLoop, he] at h
    | some a =>
      cases a with
      | none => simp [VectorHashTable.getLoop, he] at h
      | some p =>
        obtain ⟨k2, v2⟩ := p
        simp only [VectorHashTable.getLoop, he] at h
        by_cases hm : k2 = key
        · rw [if_pos hm] at h
          simp only [Option.some.injEq] at h
          refine ⟨0, by omega, by omega, ?_⟩
          rw [Nat.add_zero, Nat.mod_eq_of_lt hidx]
          rw [hm, h] at he
          exact he
        · rw [if_neg hm] at h
          obtain ⟨t, ht, hpre, hslot⟩ := ih _ _ _ (probe_step_lt hidx) h
          rw [probe_shift] at hslot
          refine ⟨t + 1, by omega, ?_, hslot⟩
          intro u hu
          cases u with
          | zero =>
            rw [Nat.add_zero, Nat.mod_eq_of_lt hidx]
            exact ⟨k2, v2, he, hm⟩
          | succ u' =>
            have := hpre u' (by omega)
            rwa [probe_shift] at this

theorem vGetLoop_intro (key : String) :
    ∀ t fuel idx st v, idx < st.capacity → t < fuel →
      (∀ u < t, ∃ k2 v2,
        st.table[(idx + u) % st.capacity]? = some (some (k2, v2)) ∧ k2 ≠ key) →
      st.table[(idx + t) % st.capacity]? = some (some (key, v)) →
      VectorHashTable.getLoop key fuel idx st = some (some v) := by
  intro t
  induction t with
  | zero =>
    intro fuel idx st v hidx hf _ hslot
    cases fuel with
    | zero => omega
    | succ n =>
      rw [Nat.add_zero, Nat.mod_eq_of_lt hidx] at hslot
      simp [VectorHashTable.getLoop, hslot]
  | succ t' ih =>
    intro fuel idx st v hidx hf hpre hslot
    cases fuel with
    | zero => omega
    | succ n =>
      obtain ⟨k2, v2, he, hm⟩ := by
        have := hpre 0 (by omega)
        rwa [Nat.add_zero, Nat.mod_eq_of_lt hidx] at this
      simp only [VectorHashTable.getLoop, he, if_neg hm]
      refine ih n _ _ _ (probe_step_lt hidx) (by omega) ?_ ?_
      · intro u hu
        have := hpre (u + 1) (by omega)
        rwa [← probe_shift] at this
      · rwa [← probe_shift] at hslot

theorem vInsertLoop_ok_elim (key : String) (v : Int) :
    ∀ fuel idx st st2, idx < st.capacity →
      VectorHashTable.insertLoop key v fuel idx st = some (.ok, st2) →
      ∃ t, t < fuel ∧
        (∀ u < t, ∃ k2 v2,
          st.table[(idx + u) % st.capacity]? = some (some (k2, v2)) ∧ k2 ≠ key) ∧
        (st.table[(idx + t) % st.capacity]? = some none ∨
         ∃ v2, st.table[(idx + t) % st.capacity]? = some (some (key, v2))) ∧
        st2 = { st with table := st.table.set ((idx + t) % st.capacity) (some (key, v)) } := by
  intro fuel
  induction fuel with
  | zero => intro idx st st2 _ h; simp [VectorHashTable.insertLoop] at h
  | succ n ih =>
    intro idx st st2 hidx h
    cases he : st.table[idx]? with
    | none => simp [VectorHashTable.insertLoop, he] at h
    | some a =>
      cases a with
      | none =>
        simp only [VectorHashTable.insertLoop, he, Option.some.injEq,
          Prod.mk.injEq] at h
        refine ⟨0, by omega, by omega, ?_, ?_⟩
        · rw [Nat.add_zero, Nat.mod_eq_of_lt hidx]; exact Or.inl he
        · rw [Nat.add_zero, Nat.mod_eq_of_lt hidx]; exact h.2.symm
      | some p =>
        obtain ⟨k2, v2⟩ := p
        simp only [VectorHashTable.insertLoop, he] at h
        by_cases hm : k2 = key
        · rw [if_pos hm] at h
          simp only [Option.some.injEq, Prod.mk.injEq] at h
          refine ⟨0, by omega, by omega, ?_, ?_⟩
          · rw [Nat.add_zero, Nat.mod_eq_of_lt hidx]
            exact Or.inr ⟨v2, by rw [he, hm]⟩
          · rw [Nat.add_zero, Nat.mod_eq_of_lt hidx]; exact h.2.symm
        · rw [if_neg hm] at h
          obtain ⟨t, ht, hpre, hslot, hst2⟩ := ih _ _ _ (probe_step_lt hidx) h
          rw [probe_shift] at hslot hst2
          refine ⟨t + 1, by omega, ?_, hslot, hst2⟩
          intro u hu
          cases u with
          | zero =>
            rw [Nat.add_zero, Nat.mod_eq_of_lt hidx]
            exact ⟨k2, v2, he, hm⟩
          | succ u' =>
            have := hpre u' (by omega)
            rwa [probe_shift] at this

theorem vector_insert_get (hf : String → Nat) (st : VectorHashTable)
    (key : String) (v : Int) (st2 : VectorHashTable)
    (h : VectorHashTable.insert hf st key v = some (.ok, st2)) :
    VectorHashTable.get hf st2 key = some (some v) := by
  by_cases hc : st.capacity = 0
  · simp [VectorHashTable.insert, VectorHashTable.hash, hc] at h
  · have hidx : hf key % st.capacity < st.capacity := Nat.mod_lt _ (by omega)
    rw [VectorHashTable.insert, VectorHashTable.hash, if_neg hc,
      Option.some_bind] at h
    obtain ⟨t, ht, hpre, hslot, hst2⟩ :=
      vInsertLoop_ok_elim key v st.capacity _ st _ hidx h
    have hlen : (hf key % st.capacity + t) % st.capacity < st.table.length := by
      rcases hslot with h1 | ⟨v2, h1⟩ <;> exact (List.getElem?_eq_some.mp h1).1
    subst hst2
    have e1 : ∀ L : List (Option (String × Int)),
        VectorHashTable.hash hf { st with table := L } key =
          some (hf key % st.capacity) := fun L => if_neg hc
    rw [VectorHashTable.get, e1, Option.some_bind]
    refine vGetLoop_intro key t _ _ _ v hidx ht ?_ ?_
    · intro u hu
      obtain ⟨k2, v2, he, hm⟩ := hpre u hu
      refine ⟨k2, v2, ?_, hm⟩
      show (st.table.set _ _)[(hf key % st.capacity + u) % st.capacity]? = _
      have hne : (hf key % st.capacity + t) % st.capacity ≠
          (hf key % st.capacity + u) % st.capacity := by
        intro heq
        have := probe_inj ht (by omega) heq
        omega
      rw [List.getElem?_set_ne hne, he]
    · show (st.table.set _ _)[(hf key % st.capacity + t) % st.capacity]? = _
      rw [List.getElem?_set_eq hlen]

theorem vector_get_preserved (hf : String → Nat) (st : VectorHashTable)
    (key key2 : String) (v v2 : Int) (st2 : VectorHashTable)
    (hget : VectorHashTable.get hf st key = some (some v)) (hkne : key2 ≠ key)
    (hins : VectorHashTable.insert hf st key2 v2 = some (.ok, st2)) :
    VectorHashTable.get hf st2 key = some (some v) := by
  by_cases hc : st.capacity = 0
  · simp [VectorHashTable.get, VectorHashTable.hash, hc] at hget
  · have hidx : hf key % st.capacity < st.capacity := Nat.mod_lt _ (by omega)
    have hidx2 : hf key2 % st.capacity < st.capacity := Nat.mod_lt _ (by omega)
    rw [VectorHashTable.get, VectorHashTable.hash, if_neg hc,
      Option.some_bind] at hget
    rw [VectorHashTable.insert, VectorHashTable.hash, if_neg hc,
      Option.some_bind] at hins
    obtain ⟨t, ht, hpre, hslot⟩ := vGetLoop_elim key st.capacity _ st v hidx hget
    obtain ⟨t2, ht2, _, hslot2, hst2⟩ :=
      vInsertLoop_ok_elim key2 v2 st.capacity _ st _ hidx2 hins
    subst hst2
    have hq : (hf key2 % st.capacity + t2) % st.capacity ≠
        (hf key % st.capacity + t) % st.capacity := by
      intro heq
      rw [heq] at hslot2
      rcases hslot2 with h1 | ⟨v3, h1⟩
      · rw [hslot] at h1; simp at h1
      · rw [hslot] at h1
        simp only [Option.some.injEq, Prod.mk.injEq] at h1
        exact hkne h1.1.symm
    have e1 : ∀ L : List (Option (String × Int)),
        VectorHashTable.hash hf { st with table := L } key =
          some (hf key % st.capacity) := fun L => if_neg hc
    rw [VectorHashTable.get, e1, Option.some_bind]
    refine vGetLoop_intro key t _ _ _ v hidx ht ?_ ?_
    · intro u hu
      obtain ⟨k2, v3, he, hm⟩ := hpre u hu
      by_cases hru : (hf key2 % st.capacity + t2) % st.capacity =
          (hf key % st.capacity + u) % st.capacity
      · refine ⟨key2, v2, ?_, hkne⟩
        show (st.table.set _ _)[(hf key % st.capacity + u) % st.capacity]? = _
        rw [← hru]
        have hlen2 : (hf key2 % st.capacity + t2) % st.capacity < st.table.length := by
          rcases hslot2 with h1 | ⟨v4, h1⟩ <;> exact (List.getElem?_eq_some.mp h1).1
        rw [List.getElem?_set_eq hlen2]
      · refine ⟨k2, v3, ?_, hm⟩
        show (st.table.set _ _)[(hf key % st.capacity + u) % st.capacity]? = _
        rw [List.getElem?_set_ne hru, he]
    · show (st.table.set _ _)[(hf key % st.capacity + t) % st.capacity]? = _
      rw [List.getElem?_set_ne hq, hslot]

theorem array_insert_get (hf : List Nat → Nat) (st : ArrayHashTable)
    (key : List Nat) (v : Int) (st2 : ArrayHashTable)
    (h : ArrayHashTable.insert hf st key v = (.ok, st2)) :
    ArrayHashTable.get hf st2 key CAPACITY = some (some v) := by
  by_cases hl : MAX_KEY_LEN < key.length
  · rw [ArrayHashTable.insert, if_pos hl] at h
    exact absurd (congrArg Prod.fst h) (by simp)
  · rw [ArrayHashTable.insert, if_neg hl] at h
    obtain ⟨t, ht, hpre, hlt, htab, hlast, hfst⟩ :=
      insertLoop_ok_elim _ _ _ _ _ _ _ _ (hash_lt hf key) h
    rw [ArrayHashTable.get]
    have hmatch : slotMatches ⟨padded_copy key, key.length, v⟩ key = true := by
      rw [slotMatches_padded]; exact beq_self_eq_true key
    refine getLoop_follows t CAPACITY _ (hash_lt hf key) ht ?_ ?_ hmatch
    · intro u hu
      obtain ⟨e, he, hm⟩ := hpre u hu
      refine ⟨e, ?_, hm⟩
      rw [htab, writeSlot]
      have hne : (ArrayHashTable.hash hf key + u) % CAPACITY ≠
          (ArrayHashTable.hash hf key + t) % CAPACITY := by
        intro heq
        exact absurd (probe_inj (by omega) ht heq) (by omega)
      rw [if_neg hne]
      exact he
    · rw [htab, writeSlot, if_pos rfl]

/-- Claim C3, amended (corrected record): for both linear-probing tables a
successful `insert(k, v)` makes an immediate `get(k)` return `v`, and for the
vector table the round trip survives any intervening successful insert of a
different key; it does NOT survive an intervening removal of another key on
k's probe chain (the tombstone-free gap the spec flags in its sections 4.1
and 9), which the unamended claim asserted it would. -/
theorem roundtrip_amended :
    (∀ (hf : String → Nat) (st : VectorHashTable) (key : String) (v : Int)
      (st2 : VectorHashTable),
      VectorHashTable.insert hf st key v = some (.ok, st2) →
      VectorHashTable.get hf st2 key = some (some v)) ∧
    (∀ (hf : String → Nat) (st : VectorHashTable) (key key2 : String)
      (v v2 : Int) (st2 : VectorHashTable),
      VectorHashTable.get hf st key = some (some v) → key2 ≠ key →
      VectorHashTable.insert hf st key2 v2 = some (.ok, st2) →
      VectorHashTable.get hf st2 key = some (some v)) ∧
    (∀ (hf : List Nat → Nat) (st : ArrayHashTable) (key : List Nat) (v : Int)
      (st2 : ArrayHashTable),
      ArrayHashTable.insert hf st key v = (.ok, st2) →
      ArrayHashTable.get hf st2 key CAPACITY = some (some v)) :=
  ⟨vector_insert_get,
   fun hf st key key2 v v2 st2 hget hkne hins =>
     vector_get_preserved hf st key key2 v v2 st2 hget hkne hins,
   array_insert_get⟩

/-- The unamended round trip is false: with every key hashing to slot 0 on a
capacity-3 vector table, insert "a"=1 (slot 0), insert "b"=2 (collides,
lands in slot 1), then remove "a" — which empties slot 0 without a tombstone.
"b" was never removed and its insert succeeded, yet get "b" now stops at the
emptied slot 0 and returns none. -/
theorem roundtrip_remove_counterexample :
    VectorHashTable.insert sf0 (VectorHashTable.new 3) kA 1 =
      some (.ok, ⟨[some (kA, 1), none, none], 3⟩) ∧
    VectorHashTable.insert sf0 (⟨[some (kA, 1), none, none], 3⟩ : VectorHashTable) kB 2 =
      some (.ok, ⟨[some (kA, 1), some (kB, 2), none], 3⟩) ∧
    VectorHashTable.remove sf0
        (⟨[some (kA, 1), some (kB, 2), none], 3⟩ : VectorHashTable) kA =
      some (⟨[none, some (kB, 2), none], 3⟩ : VectorHashTable) ∧
    VectorHashTable.get sf0 (⟨[none, some (kB, 2), none], 3⟩ : VectorHashTable) kB =
      some none := by
  refine ⟨by decide, by decide, by decide, by decide⟩

/-- Witness for C3: concrete round trips through the amended theorem. -/
theorem roundtrip_amended_witness :
    VectorHashTable.get sf0 (⟨[some (kA, 1), none, none], 3⟩ : VectorHashTable) kA =
      some (some 1) ∧
    VectorHashTable.get sf0 (⟨[some (kA, 1), some (kB, 2), none], 3⟩ : VectorHashTable) kA =
      some (some 1) ∧
    ArrayHashTable.get hf0 (ArrayHashTable.insert hf0 ArrayHashTable.new [1] 5).2 [1]
      CAPACITY = some (some 5) :=
  ⟨roundtrip_amended.1 sf0 (VectorHashTable.new 3) kA 1 _ (by decide),
   roundtrip_amended.2.1 sf0 (⟨[some (kA, 1), none, none], 3⟩ : VectorHashTable)
     kA kB 1 2 _ (by decide) (by decide) (by decide),
   roundtrip_amended.2.2 hf0 ArrayHashTable.new [1] 5 _ (Prod.ext (by decide) rfl)⟩

/-!
The deque-over-map table.  The association-list map and the order deque march
in lockstep: the deque always equals the keys of the map in first-insertion
order, without duplicates and never beyond the capacity, and the table as a
whole refines the claim-level `liveEntries` model.
-/

theorem mapContains_iff_mem (l : List (String × Int)) (k : String) :
    mapContains l k = true ↔ k ∈ l.map Prod.fst := by
  rw [mapContains, List.any_eq_true]
  constructor
  · rintro ⟨p, hp, hbeq⟩
    exact List.mem_map.mpr ⟨p, hp, beq_iff_eq.mp hbeq⟩
  · rintro h
    obtain ⟨p, hp, heq⟩ := List.mem_map.mp h
    exact ⟨p, hp, beq_iff_eq.mpr heq⟩

theorem mapContains_false_iff (l : List (String × Int)) (k : String) :
    mapContains l k = false ↔ k ∉ l.map Prod.fst := by
  rw [← mapContains_iff_mem]
  cases mapContains l k <;> simp

theorem mapInsertPair_of_not_mem {l : List (String × Int)} {k : String}
    (h : k ∉ l.map Prod.fst) (v : Int) : mapInsertPair l k v = l ++ [(k, v)] := by
  induction l with
  | nil => rfl
  | cons p rest ih =>
    simp only [List.map_cons, List.mem_cons, not_or] at h
    rw [mapInsertPair,
      if_neg (by simp only [beq_iff_eq]; exact fun he => h.1 he.symm)]
    rw [ih h.2, List.cons_append]

theorem map_if_key_id {l : List (String × Int)} {k : String} (v : Int)
    (h : k ∉ l.map Prod.fst) :
    l.map (fun p => if p.1 == k then (k, v) else p) = l := by
  induction l with
  | nil => rfl
  | cons p rest ih =>
    simp only [List.map_cons, List.mem_cons, not_or] at h
    rw [List.map_cons, if_neg (by simp only [beq_iff_eq]; exact fun he => h.1 he.symm),
      ih h.2]

theorem mapInsertPair_of_mem {l : List (String × Int)} {k : String}
    (hnd : (l.map Prod.fst).Nodup) (h : k ∈ l.map Prod.fst) (v : Int) :
    mapInsertPair l k v = l.map (fun p => if p.1 == k then (k, v) else p) := by
  induction l with
  | nil => simp at h
  | cons p rest ih =>
    rw [List.map_cons] at hnd
    rw [List.map_cons]
    by_cases hpk : p.1 = k
    · rw [mapInsertPair, if_pos (beq_iff_eq.mpr hpk), if_pos (beq_iff_eq.mpr hpk)]
      have hrest : k ∉ rest.map Prod.fst := by
        rw [← hpk]
        exact (List.nodup_cons.mp hnd).1
      rw [map_if_key_id v hrest]
    · rw [mapInsertPair, if_neg (by simp only [beq_iff_eq]; exact hpk),
        if_neg (by simp only [beq_iff_eq]; exact hpk)]
      have hkrest : k ∈ rest.map Prod.fst := by
        rw [List.map_cons] at h
        rcases List.mem_cons.mp h with h1 | h1
        · exact absurd h1.symm (fun he => hpk he)
        · exact h1
      rw [ih (List.nodup_cons.mp hnd).2 hkrest]

theorem keys_map_if (l : List (String × Int)) (k : String) (v : Int) :
    (l.map (fun p => if p.1 == k then (k, v) else p)).map Prod.fst = l.map Prod.fst := by
  rw [List.map_map]
  refine List.map_congr_left fun p _ => ?_
  by_cases hpk : p.1 = k
  · simp [Function.comp, beq_iff_eq, hpk]
  · simp [Function.comp, beq_iff_eq, hpk]

theorem map_fst_eraseP (l : List (String × Int)) (k : String) :
    (l.eraseP fun p => p.1 == k).map Prod.fst =
      (l.map Prod.fst).eraseP fun s => s == k := by
  induction l with
  | nil => rfl
  | cons p rest ih =>
    rw [List.eraseP_cons, List.map_cons, List.eraseP_cons]
    by_cases hpk : p.1 = k
    · have hb : (p.1 == k) = true := beq_iff_eq.mpr hpk
      simp only [hb, cond_true]
    · have hb : (p.1 == k) = false := by simp [beq_iff_eq, hpk]
      simp only [hb, cond_false, List.map_cons, ih]

theorem mapGetV_cons_self (k : String) (v : Int) (t : List (String × Int)) :
    mapGetV ((k, v) :: t) k = some v := by
  simp [mapGetV, List.find?_cons_of_pos]

theorem mapGetV_of_mem_nodup {l : List (String × Int)} {k : String} {v : Int}
    (hnd : (l.map Prod.fst).Nodup) (h : (k, v) ∈ l) : mapGetV l k = some v := by
  induction l with
  | nil => simp at h
  | cons p rest ih =>
    rw [List.map_cons, List.nodup_cons] at hnd
    rcases List.mem_cons.mp h with h1 | h1
    · rw [← h1]; exact mapGetV_cons_self k v rest
    · by_cases hpk : p.1 = k
      · exfalso
        apply hnd.1
        rw [hpk]
        exact List.mem_map.mpr ⟨(k, v), h1, rfl⟩
      · rw [mapGetV, List.find?_cons_of_neg _ (by simp [beq_iff_eq, hpk])]
        exact ih hnd.2 h1

/-- The lockstep relation between a reachable deque-over-map table and the
claim-level list of live entries. -/
def HMrel (cap : Nat) (st : HashMapHashTable) (l : List (String × Int)) : Prop :=
  st.map = l ∧ st.order = l.map Prod.fst ∧ (l.map Prod.fst).Nodup ∧
  l.length ≤ cap ∧ st.capacity = cap

theorem hm_rel_step (cap : Nat) (st : HashMapHashTable) (l : List (String × Int))
    (op : HMOp) (h : HMrel cap st l) :
    HMrel cap (HashMapHashTable.applyOp st op) (specStep cap l op) := by
  obtain ⟨hmap, horder, hnd, hlen, hcap⟩ := h
  cases op with
  | ins k v =>
    show HMrel cap (HashMapHashTable.insert st k v).2 _
    rw [HashMapHashTable.insert, specStep, hmap]
    by_cases hk : k ∈ l.map Prod.fst
    · rw [if_pos (mapContains_iff_mem l k |>.mpr hk),
        if_pos (List.elem_iff.mpr hk)]
      refine ⟨?_, ?_, ?_, ?_, hcap⟩
      · show mapInsertPair l k v = _
        exact mapInsertPair_of_mem hnd hk v
      · show st.order = _
        rw [horder, keys_map_if]
      · rw [keys_map_if]; exact hnd
      · rw [List.length_map]; exact hlen
    · rw [if_neg fun hc => hk (mapContains_iff_mem l k |>.mp hc),
        if_neg fun hc => hk (List.elem_iff.mp hc)]
      by_cases hfull : l.length = cap
      · rw [if_pos (by rw [hcap]; exact hfull), if_pos hfull]
        exact ⟨hmap, horder, hnd, hlen, hcap⟩
      · rw [if_neg (by rw [hcap]; exact hfull), if_neg hfull]
        refine ⟨?_, ?_, ?_, ?_, hcap⟩
        · show mapInsertPair l k v = _
          exact mapInsertPair_of_not_mem hk v
        · show st.order ++ [k] = _
          rw [horder]; simp
        · simp only [List.map_append, List.map_cons, List.map_nil]
          rw [List.nodup_append]
          refine ⟨hnd, List.nodup_singleton k, ?_⟩
          intro a ha hb
          rw [List.mem_singleton] at hb
          exact hk (hb ▸ ha)
        · rw [List.length_append, List.length_singleton]; omega
  | rem k =>
    show HMrel cap (HashMapHashTable.remove st k) _
    rw [HashMapHashTable.remove, specStep, hmap]
    by_cases hk : k ∈ l.map Prod.fst
    · rw [if_pos (mapContains_iff_mem l k |>.mpr hk)]
      refine ⟨rfl, ?_, ?_, ?_, hcap⟩
      · show st.order.eraseP (fun s => s == k) = _
        rw [horder, map_fst_eraseP]
      · rw [map_fst_eraseP]
        exact (List.eraseP_sublist _).nodup hnd
      · exact le_trans ((List.eraseP_sublist l).length_le) hlen
    · rw [if_neg fun hc => hk (mapContains_iff_mem l k |>.mp hc)]
      rw [List.eraseP_of_forall_not]
      · exact ⟨hmap, horder, hnd, hlen, hcap⟩
      · intro p hp hbe
        exact hk (List.mem_map.mpr ⟨p, hp, beq_iff_eq.mp hbe⟩)

theorem hm_rel_fold (cap : Nat) :
    ∀ (ops : List HMOp) (st : HashMapHashTable) (l : List (String × Int)),
      HMrel cap st l →
      HMrel cap (ops.foldl HashMapHashTable.applyOp st) (ops.foldl (specStep cap) l) := by
  intro ops
  induction ops with
  | nil => intro st l h; exact h
  | cons op rest ih =>
    intro st l h
    rw [List.foldl_cons, List.foldl_cons]
    exact ih _ _ (hm_rel_step cap st l op h)

theorem hm_rel_run (cap : Nat) (ops : List HMOp) :
    HMrel cap (HashMapHashTable.runOps cap ops) (liveEntries cap ops) :=
  hm_rel_fold cap ops (HashMapHashTable.new cap) []
    ⟨rfl, rfl, List.nodup_nil, by simp, rfl⟩

theorem hm_get_first_eq {cap : Nat} {st : HashMapHashTable}
    {l : List (String × Int)} (h : HMrel cap st l) :
    st.get_first = l.head? := by
  obtain ⟨hmap, horder, hnd, _, _⟩ := h
  rw [HashMapHashTable.get_first, horder, hmap]
  cases l with
  | nil => rfl
  | cons p t =>
    obtain ⟨k, v⟩ := p
    rw [List.map_cons, List.head?_cons, Option.some_bind, List.head?_cons]
    show (mapGetV ((k, v) :: t) k).map (fun v => (k, v)) = some (k, v)
    rw [mapGetV_cons_self]
    rfl

theorem hm_get_last_eq {cap : Nat} {st : HashMapHashTable}
    {l : List (String × Int)} (h : HMrel cap st l) :
    st.get_last = l.getLast? := by
  obtain ⟨hmap, horder, hnd, _, _⟩ := h
  rw [HashMapHashTable.get_last, horder, hmap]
  rcases List.eq_nil_or_concat l with hnil | ⟨l2, p, hcat⟩
  · rw [hnil]; rfl
  · rw [List.concat_eq_append] at hcat
    obtain ⟨k, v⟩ := p
    rw [hcat] at hnd
    rw [hcat, List.map_append, List.map_cons, List.map_nil,
      List.getLast?_concat, List.getLast?_concat, Option.some_bind]
    have hget := mapGetV_of_mem_nodup (l := l2 ++ [(k, v)]) (k := k) (v := v)
      hnd (by simp)
    show (mapGetV (l2 ++ [(k, v)]) k).map (fun v => (k, v)) = some (k, v)
    rw [hget]
    rfl

/-- Claim C2, amended (corrected record): for `HashMapHashTable`, after any
sequence of inserts and removals `get_first()` returns the live entry whose
first insertion is earliest and `get_last()` the live entry whose first
insertion is latest, each carrying its current value — an update of an
existing key changes its value but not its recency — and both are none
exactly when no entry is live.  For `ArrayHashTable`, any successful insert
or update of `(k, v)` makes `get_last()` return `(k, v)`. -/
theorem endpoints_amended :
    (∀ (cap : Nat) (ops : List HMOp),
      (HashMapHashTable.runOps cap ops).get_first = (liveEntries cap ops).head? ∧
      (HashMapHashTable.runOps cap ops).get_last = (liveEntries cap ops).getLast? ∧
      ((HashMapHashTable.runOps cap ops).get_first = none ↔ liveEntries cap ops = []) ∧
      ((HashMapHashTable.runOps cap ops).get_last = none ↔ liveEntries cap ops = [])) ∧
    (∀ (hf : List Nat → Nat) (st : ArrayHashTable) (key : List Nat) (v : Int)
      (st2 : ArrayHashTable), ArrayHashTable.insert hf st key v = (.ok, st2) →
      st2.get_last = some (key, v)) := by
  constructor
  · intro cap ops
    have hrel := hm_rel_run cap ops
    have h1 := hm_get_first_eq hrel
    have h2 := hm_get_last_eq hrel
    refine ⟨h1, h2, ?_, ?_⟩
    · rw [h1, List.head?_eq_none_iff]
    · rw [h2, List.getLast?_eq_none_iff]
  · intro hf st key v st2 h
    by_cases hl : MAX_KEY_LEN < key.length
    · rw [ArrayHashTable.insert, if_pos hl] at h
      exact absurd (congrArg Prod.fst h) (by simp)
    · rw [ArrayHashTable.insert, if_neg hl] at h
      obtain ⟨t, ht, hpre, hlt, htab, hlast, hfst⟩ :=
        insertLoop_ok_elim _ _ _ _ _ _ _ _ (hash_lt hf key) h
      rw [ArrayHashTable.get_last, hlast, Option.some_bind, htab, writeSlot,
        if_pos rfl]
      show some (List.take key.length (padded_copy key), v) = _
      rw [take_padded]

/-- On the deque-over-map table, an update of an existing key does NOT make
it the most recent entry: after insert a=1, insert b=2, insert a=3, the
update of a changed its value (get a = 3) but `get_last` still returns
(b, 2), where the unamended claim demands (a, 3). -/
theorem update_recency_counterexample :
    (HashMapHashTable.runOps 10 [HMOp.ins kA 1, HMOp.ins kB 2, HMOp.ins kA 3]).get kA
      = some 3 ∧
    (HashMapHashTable.runOps 10 [HMOp.ins kA 1, HMOp.ins kB 2, HMOp.ins kA 3]).get_last
      = some (kB, 2) := by
  refine ⟨by decide, by decide⟩

/-- Witness for C2: the endpoints of a concrete run, and a concrete array
insert showing up in `get_last`. -/
theorem endpoints_amended_witness :
    (HashMapHashTable.runOps 10 [HMOp.ins kA 1, HMOp.ins kB 2]).get_first =
      (liveEntries 10 [HMOp.ins kA 1, HMOp.ins kB 2]).head? ∧
    (ArrayHashTable.insert hf0 ArrayHashTable.new [2] 9).2.get_last = some ([2], 9) :=
  ⟨(endpoints_amended.1 10 [HMOp.ins kA 1, HMOp.ins kB 2]).1,
   endpoints_amended.2 hf0 ArrayHashTable.new [2] 9 _ (Prod.ext (by decide) rfl)⟩

/-- Claim C10: after any sequence of inserts and removals from
`new(capacity)`, the order deque holds exactly the keys present in the map,
each exactly once, the map never exceeds the capacity, `get_first`/`get_last`
return a value exactly when the map is non-empty, and the key they return is
present in the map. -/
theorem hashmap_order_invariant (cap : Nat) (ops : List HMOp) :
    (HashMapHashTable.runOps cap ops).order.Nodup ∧
    (∀ k, k ∈ (HashMapHashTable.runOps cap ops).order ↔
      mapContains (HashMapHashTable.runOps cap ops).map k = true) ∧
    (HashMapHashTable.runOps cap ops).map.length ≤ cap ∧
    ((HashMapHashTable.runOps cap ops).get_first.isSome = true ↔
      (HashMapHashTable.runOps cap ops).map ≠ []) ∧
    ((HashMapHashTable.runOps cap ops).get_last.isSome = true ↔
      (HashMapHashTable.runOps cap ops).map ≠ []) ∧
    (∀ p, (HashMapHashTable.runOps cap ops).get_first = some p →
      mapContains (HashMapHashTable.runOps cap ops).map p.1 = true) ∧
    (∀ p, (HashMapHashTable.runOps cap ops).get_last = some p →
      mapContains (HashMapHashTable.runOps cap ops).map p.1 = true) := by
  have hrel := hm_rel_run cap ops
  obtain ⟨hmap, horder, hnd, hlen, hcap⟩ := hrel
  have h1 := hm_get_first_eq (hm_rel_run cap ops)
  have h2 := hm_get_last_eq (hm_rel_run cap ops)
  refine ⟨by rw [horder]; exact hnd, ?_, by rw [hmap]; exact hlen, ?_, ?_, ?_, ?_⟩
  · intro k
    rw [horder, mapContains_iff_mem, hmap]
  · rw [h1, hmap, Option.isSome_iff_ne_none, not_iff_not, List.head?_eq_none_iff]
  · rw [h2, hmap, Option.isSome_iff_ne_none, not_iff_not, List.getLast?_eq_none_iff]
  · intro p hp
    rw [h1] at hp
    rw [hmap, mapContains_iff_mem]
    exact List.mem_map.mpr ⟨p, List.mem_of_mem_head? hp, rfl⟩
  · intro p hp
    rw [h2] at hp
    rw [hmap, mapContains_iff_mem]
    exact List.mem_map.mpr ⟨p, List.mem_of_mem_getLast? hp, rfl⟩

/-- Witness for C10: the invariant read off a concrete run. -/
theorem hashmap_order_invariant_witness :
    (HashMapHashTable.runOps 2 [HMOp.ins kA 1, HMOp.ins kB 2, HMOp.rem kA]).order.Nodup ∧
    mapContains (HashMapHashTable.runOps 2 [HMOp.ins kA 1, HMOp.ins kB 2, HMOp.rem kA]).map
      kB = true :=
  ⟨(hashmap_order_invariant 2 [HMOp.ins kA 1, HMOp.ins kB 2, HMOp.rem kA]).1,
   (hashmap_order_invariant 2 [HMOp.ins kA 1, HMOp.ins kB 2, HMOp.rem kA]).2.2.2.2.2.2
     (kB, 2) (by decide)⟩

/-!
The endpoint rescan of the array table: after `update_first_last`, `first`
and `last` are `None` exactly on an empty table and otherwise name occupied
slots.
-/

theorem scan_fold (t : Nat → Option AEntry) :
    ∀ (l : List Nat) (acc : Option Nat × Option Nat),
      (((l.foldl (scanStep t) acc).1 = none) ↔
        (acc.1 = none ∧ ∀ i ∈ l, t i = none)) ∧
      (∀ j, (l.foldl (scanStep t) acc).1 = some j →
        acc.1 = some j ∨ (j ∈ l ∧ (t j).isSome = true)) ∧
      (((l.foldl (scanStep t) acc).2 = none) ↔
        (acc.2 = none ∧ ∀ i ∈ l, t i = none)) ∧
      (∀ j, (l.foldl (scanStep t) acc).2 = some j →
        acc.2 = some j ∨ (j ∈ l ∧ (t j).isSome = true)) := by
  intro l
  induction l with
  | nil =>
    intro acc
    refine ⟨by simp, fun j hj => Or.inl hj, by simp, fun j hj => Or.inl hj⟩
  | cons i rest ih =>
    intro acc
    rw [List.foldl_cons]
    cases ht : t i with
    | none =>
      have hstep : scanStep t acc i = acc := by rw [scanStep, ht]
      rw [hstep]
      obtain ⟨ih1, ih2, ih3, ih4⟩ := ih acc
      refine ⟨?_,
        fun j hj => (ih2 j hj).imp id
          (fun hh => ⟨List.mem_cons_of_mem i hh.1, hh.2⟩),
        ?_,
        fun j hj => (ih4 j hj).imp id
          (fun hh => ⟨List.mem_cons_of_mem i hh.1, hh.2⟩)⟩
      · rw [ih1]
        constructor
        · rintro ⟨h1, h2⟩
          exact ⟨h1, fun x hx => by
            rcases List.mem_cons.mp hx with h | h
            · rw [h]; exact ht
            · exact h2 x h⟩
        · rintro ⟨h1, h2⟩
          exact ⟨h1, fun x hx => h2 x (List.mem_cons_of_mem i hx)⟩
      · rw [ih3]
        constructor
        · rintro ⟨h1, h2⟩
          exact ⟨h1, fun x hx => by
            rcases List.mem_cons.mp hx with h | h
            · rw [h]; exact ht
            · exact h2 x h⟩
        · rintro ⟨h1, h2⟩
          exact ⟨h1, fun x hx => h2 x (List.mem_cons_of_mem i hx)⟩
    | some e =>
      have hstep : scanStep t acc i =
          (if acc.1 = none then some i else acc.1, some i) := by rw [scanStep, ht]
      rw [hstep]
      obtain ⟨ih1, ih2, ih3, ih4⟩ :=
        ih (if acc.1 = none then some i else acc.1, some i)
      refine ⟨?_, ?_, ?_, ?_⟩
      · rw [ih1]
        constructor
        · rintro ⟨h1, _⟩
          split at h1 <;> simp_all
        · rintro ⟨_, h2⟩
          have := h2 i (List.mem_cons_self i rest)
          rw [ht] at this
          exact absurd this (by simp)
      · intro j hj
        rcases ih2 j hj with h | h
        · split at h
          · right
            rw [Option.some.injEq] at h
            rw [← h]
            exact ⟨List.mem_cons_self i rest, by rw [ht]; rfl⟩
          · exact Or.inl h
        · exact Or.inr ⟨List.mem_cons_of_mem i h.1, h.2⟩
      · rw [ih3]
        constructor
        · rintro ⟨h1, _⟩
          exact absurd h1 (by simp)
        · rintro ⟨_, h2⟩
          have := h2 i (List.mem_cons_self i rest)
          rw [ht] at this
          exact absurd this (by simp)
      · intro j hj
        rcases ih4 j hj with h | h
        · right
          rw [Option.some.injEq] at h
          rw [← h]
          exact ⟨List.mem_cons_self i rest, by rw [ht]; rfl⟩
        · exact Or.inr ⟨List.mem_cons_of_mem i h.1, h.2⟩

theorem ufl_table (st : ArrayHashTable) :
    (st.update_first_last).table = st.table := by
  rw [ArrayHashTable.update_first_last]

theorem ufl_first_eq (st : ArrayHashTable) :
    (st.update_first_last).first =
      ((List.range CAPACITY).foldl (scanStep st.table) (none, none)).1 := by
  rw [ArrayHashTable.update_first_last]

theorem ufl_last_eq (st : ArrayHashTable) :
    (st.update_first_last).last =
      ((List.range CAPACITY).foldl (scanStep st.table) (none, none)).2 := by
  rw [ArrayHashTable.update_first_last]

theorem ufl_first_none (st : ArrayHashTable) :
    ((st.update_first_last).first = none) ↔ allEmpty st := by
  rw [ufl_first_eq, (scan_fold st.table (List.range CAPACITY) (none, none)).1]
  constructor
  · rintro ⟨_, h2⟩
    exact fun i hi => h2 i (List.mem_range.mpr hi)
  · intro h2
    exact ⟨rfl, fun i hi => h2 i (List.mem_range.mp hi)⟩

theorem ufl_last_none (st : ArrayHashTable) :
    ((st.update_first_last).last = none) ↔ allEmpty st := by
  rw [ufl_last_eq, (scan_fold st.table (List.range CAPACITY) (none, none)).2.2.1]
  constructor
  · rintro ⟨_, h2⟩
    exact fun i hi => h2 i (List.mem_range.mpr hi)
  · intro h2
    exact ⟨rfl, fun i hi => h2 i (List.mem_range.mp hi)⟩

theorem ufl_first_some (st : ArrayHashTable) (j : Nat)
    (h : (st.update_first_last).first = some j) :
    j < CAPACITY ∧ (st.table j).isSome = true := by
  rw [ufl_first_eq] at h
  rcases (scan_fold st.table (List.range CAPACITY) (none, none)).2.1 j h with h2 | h2
  · exact absurd h2 (by simp)
  · exact ⟨List.mem_range.mp h2.1, h2.2⟩

theorem ufl_last_some (st : ArrayHashTable) (j : Nat)
    (h : (st.update_first_last).last = some j) :
    j < CAPACITY ∧ (st.table j).isSome = true := by
  rw [ufl_last_eq] at h
  rcases (scan_fold st.table (List.range CAPACITY) (none, none)).2.2.2 j h with h2 | h2
  · exact absurd h2 (by simp)
  · exact ⟨List.mem_range.mp h2.1, h2.2⟩

theorem removeLoop_elim (key : List Nat) :
    ∀ fuel idx st st2, idx < CAPACITY →
      ArrayHashTable.removeLoop key fuel idx st = some st2 →
      st2 = st ∨ ∃ p, p < CAPACITY ∧ ∃ e, st.table p = some e ∧
        slotMatches e key = true ∧
        st2 = (if st.first = some p ∨ st.last = some p
               then ArrayHashTable.update_first_last { st with table := eraseSlot st.table p }
               else { st with table := eraseSlot st.table p }) := by
  intro fuel
  induction fuel with
  | zero => intro idx st st2 _ h; exact absurd h (by simp [ArrayHashTable.removeLoop])
  | succ n ih =>
    intro idx st st2 hidx h
    simp only [ArrayHashTable.removeLoop] at h
    cases he : st.table idx with
    | none =>
      simp only [he, Option.some.injEq] at h
      exact Or.inl h.symm
    | some e =>
      simp only [he] at h
      by_cases hm : slotMatches e key
      · rw [if_pos hm] at h
        simp only [Option.some.injEq] at h
        exact Or.inr ⟨idx, hidx, e, he, hm, h.symm⟩
      · rw [if_neg hm] at h
        exact ih _ _ _ (probe_step_lt hidx) h

theorem arrayInv_insert (hf : List Nat → Nat) (st : ArrayHashTable)
    (key : List Nat) (v : Int) (h : ArrayInv st) :
    ArrayInv (ArrayHashTable.insert hf st key v).2 := by
  obtain ⟨hf1, hl1, hfp, hlp⟩ := h
  by_cases hres : (ArrayHashTable.insert hf st key v).1 = .ok
  case neg =>
    rw [array_insert_fail_unchanged hf st key v hres]
    exact ⟨hf1, hl1, hfp, hlp⟩
  case pos =>
    by_cases hlen : MAX_KEY_LEN < key.length
    · rw [ArrayHashTable.insert, if_pos hlen] at hres
      exact absurd hres (by simp)
    · rw [ArrayHashTable.insert, if_neg hlen] at hres ⊢
      rcases hr : ArrayHashTable.insertLoop (padded_copy key) key.length key v
        CAPACITY (ArrayHashTable.hash hf key) st with ⟨r, st2⟩
      rw [hr] at hres
      obtain ⟨t, ht, hpre, hplt, htab, hlast, hfst⟩ :=
        insertLoop_ok_elim _ _ _ _ _ _ _ _ (hash_lt hf key)
          (by rw [hr, (show r = InsertResult.ok from hres)] :
            ArrayHashTable.insertLoop (padded_copy key)
            key.length key v CAPACITY (ArrayHashTable.hash hf key) st = (.ok, st2))
      show ArrayInv st2
      set p := (ArrayHashTable.hash hf key + t) % CAPACITY with hp
      have hocc : (st2.table p).isSome = true := by
        rw [htab, writeSlot, if_pos rfl]; rfl
      have hnotempty : ¬ allEmpty st2 := by
        intro hall
        rw [hall p hplt] at hocc
        exact absurd hocc (by simp)
      have hkeep : ∀ j, (st.table j).isSome = true → (st2.table j).isSome = true := by
        intro j hj
        rw [htab, writeSlot]
        by_cases hjp : j = p
        · rw [if_pos hjp]; rfl
        · rw [if_neg hjp]; exact hj
      have hfirst2 : (∀ j, st2.first = some j →
          j < CAPACITY ∧ (st2.table j).isSome = true) ∧ st2.first ≠ none := by
        rcases hfst with ⟨hslot, hfeq⟩ | ⟨e, hslot, hm, hfeq⟩
        · by_cases hf0 : st.first = none
          · rw [hfeq, if_pos hf0]
            refine ⟨fun j hj => ?_, by simp⟩
            rw [← Option.some.injEq _ _ |>.mp hj]
            exact ⟨hplt, hocc⟩
          · rw [hfeq, if_neg hf0]
            exact ⟨fun j hj => ⟨(hfp j hj).1, hkeep j (hfp j hj).2⟩, hf0⟩
        · have hne : st.first ≠ none := by
            intro h0
            have := hf1.mp h0 p hplt
            rw [this] at hslot
            exact absurd hslot (by simp)
          rw [hfeq]
          exact ⟨fun j hj => ⟨(hfp j hj).1, hkeep j (hfp j hj).2⟩, hne⟩
      refine ⟨?_, ?_, hfirst2.1, ?_⟩
      · constructor
        · intro h0; exact absurd h0 hfirst2.2
        · intro h0; exact absurd h0 hnotempty
      · constructor
        · intro h0; rw [hlast] at h0; exact absurd h0 (by simp)
        · intro h0; exact absurd h0 hnotempty
      · intro j hj
        rw [hlast, Option.some.injEq] at hj
        rw [← hj]
        exact ⟨hplt, hocc⟩

theorem allEmpty_of_table_eq {s1 s2 : ArrayHashTable} (h : s1.table = s2.table) :
    allEmpty s1 ↔ allEmpty s2 := by
  simp only [allEmpty, h]

theorem arrayInv_remove (hf : List Nat → Nat) (st : ArrayHashTable)
    (key : List Nat) (fuel : Nat) (st2 : ArrayHashTable) (h : ArrayInv st)
    (hrem : ArrayHashTable.remove hf st key fuel = some st2) : ArrayInv st2 := by
  obtain ⟨hf1, hl1, hfp, hlp⟩ := h
  rw [ArrayHashTable.remove] at hrem
  rcases removeLoop_elim key fuel _ st st2 (hash_lt hf key) hrem with
    heq | ⟨p, hplt, e, hslot, hm, heq⟩
  · rw [heq]; exact ⟨hf1, hl1, hfp, hlp⟩
  · by_cases hend : st.first = some p ∨ st.last = some p
    · rw [heq, if_pos hend]
      have htab2 := ufl_table { st with table := eraseSlot st.table p }
      have hae := allEmpty_of_table_eq htab2
      refine ⟨?_, ?_, ?_, ?_⟩
      · rw [ufl_first_none, hae]
      · rw [ufl_last_none, hae]
      · intro j hj
        obtain ⟨hb, ho⟩ := ufl_first_some _ j hj
        rw [htab2]
        exact ⟨hb, ho⟩
      · intro j hj
        obtain ⟨hb, ho⟩ := ufl_last_some _ j hj
        rw [htab2]
        exact ⟨hb, ho⟩
    · rw [heq, if_neg hend]
      push_neg at hend
      have hne : ¬ allEmpty st := by
        intro hall
        rw [hall p hplt] at hslot
        exact absurd hslot (by simp)
      cases hff : st.first with
      | none => exact absurd (hf1.mp hff) hne
      | some j1 =>
        cases hll : st.last with
        | none => exact absurd (hl1.mp hll) hne
        | some j2 =>
          obtain ⟨hj1lt, hj1occ⟩ := hfp j1 hff
          obtain ⟨hj2lt, hj2occ⟩ := hlp j2 hll
          have hj1p : j1 ≠ p := by
            intro hh
            exact hend.1 (by rw [hff, hh])
          have hj2p : j2 ≠ p := by
            intro hh
            exact hend.2 (by rw [hll, hh])
          have hocc1 : ((eraseSlot st.table p) j1).isSome = true := by
            rw [eraseSlot, if_neg hj1p]; exact hj1occ
          have hocc2 : ((eraseSlot st.table p) j2).isSome = true := by
            rw [eraseSlot, if_neg hj2p]; exact hj2occ
          have hne2 : ¬ allEmpty { st with table := eraseSlot st.table p } := by
            intro hall
            have h2 : eraseSlot st.table p j1 = none := hall j1 hj1lt
            rw [h2] at hocc1
            exact absurd hocc1 (by simp)
          refine ⟨?_, ?_, ?_, ?_⟩
          · refine iff_of_false ?_ hne2
            intro h0
            have h1 : some j1 = (none : Option Nat) := h0
            exact absurd h1 (by simp)
          · refine iff_of_false ?_ hne2
            intro h0
            have h1 : some j2 = (none : Option Nat) := h0
            exact absurd h1 (by simp)
          · intro j hj
            have h1 : some j1 = some j := hj
            rw [Option.some.injEq] at h1
            rw [← h1]
            exact ⟨hj1lt, hocc1⟩
          · intro j hj
            have h1 : some j2 = some j := hj
            rw [Option.some.injEq] at h1
            rw [← h1]
            exact ⟨hj2lt, hocc2⟩

theorem foldA_none (hf : List Nat → Nat) (ops : List AOp) :
    ops.foldl (fun acc op => acc.bind fun s => ArrayHashTable.applyOp hf s op)
      none = none := by
  induction ops with
  | nil => rfl
  | cons op rest ih => rw [List.foldl_cons]; exact ih

theorem arrayInv_fold (hf : List Nat → Nat) :
    ∀ (ops : List AOp) (st0 : ArrayHashTable), ArrayInv st0 →
      ∀ st, ops.foldl (fun acc op => acc.bind fun s => ArrayHashTable.applyOp hf s op)
        (some st0) = some st → ArrayInv st := by
  intro ops
  induction ops with
  | nil =>
    intro st0 h st heq
    have h2 : some st0 = some st := heq
    rw [Option.some.injEq] at h2
    rw [← h2]
    exact h
  | cons op rest ih =>
    intro st0 h st heq
    rw [List.foldl_cons] at heq
    cases op with
    | ins k v =>
      have heq2 : rest.foldl
          (fun acc op => acc.bind fun s => ArrayHashTable.applyOp hf s op)
          (some (ArrayHashTable.insert hf st0 k v).2) = some st := heq
      exact ih _ (arrayInv_insert hf st0 k v h) st heq2
    | rem k =>
      have heq2 : rest.foldl
          (fun acc op => acc.bind fun s => ArrayHashTable.applyOp hf s op)
          (ArrayHashTable.remove hf st0 k CAPACITY) = some st := heq
      cases hr : ArrayHashTable.remove hf st0 k CAPACITY with
      | none =>
        rw [hr, foldA_none] at heq2
        exact absurd heq2 (by simp)
      | some st1 =>
        rw [hr] at heq2
        exact ih _ (arrayInv_remove hf st0 k CAPACITY st1 h hr) st heq2

theorem arrayInv_new : ArrayInv ArrayHashTable.new := by
  refine ⟨?_, ?_, ?_, ?_⟩
  · exact iff_of_true rfl fun i _ => rfl
  · exact iff_of_true rfl fun i _ => rfl
  · intro j hj; exact absurd hj (by simp [ArrayHashTable.new])
  · intro j hj; exact absurd hj (by simp [ArrayHashTable.new])

/-- Claim C7: after any sequence of operations from `new()` (that returns),
`first` and `last` are both `None` exactly when no slot is occupied, and
otherwise each of them is `Some` index, in range, of a currently occupied
slot — they never dangle to an empty slot. -/
theorem endpoint_invariant (hf : List Nat → Nat) (ops : List AOp)
    (st : ArrayHashTable) (h : ArrayHashTable.runOps hf ops = some st) :
    ArrayInv st :=
  arrayInv_fold hf ops ArrayHashTable.new arrayInv_new st h

/-- Witness for C7: the invariant after a concrete insert and a concrete
no-op removal. -/
theorem endpoint_invariant_witness :
    ArrayInv ((ArrayHashTable.runOps hf0 [AOp.ins [1] 5, AOp.rem [2]]).getD
      ArrayHashTable.new) :=
  endpoint_invariant hf0 [AOp.ins [1] 5, AOp.rem [2]] _ rfl

/-!
Occupancy accounting for the array table: the occupied-slot count is full
exactly when every slot is occupied, an insert into an empty slot raises it
by one, and `Full` is returned exactly when the whole table is occupied by
entries not matching the key.
-/

theorem occ_eq_capacity_of_allOccupied {st : ArrayHashTable}
    (h : ∀ i < CAPACITY, (st.table i).isSome = true) : occ st = CAPACITY := by
  rw [occ]
  have h2 : (Finset.range CAPACITY).filter (fun i => (st.table i).isSome = true) =
      Finset.range CAPACITY := by
    apply Finset.filter_true_of_mem
    intro i hi
    exact h i (Finset.mem_range.mp hi)
  rw [h2, Finset.card_range]

theorem exists_empty_of_occ_lt {st : ArrayHashTable} (h : occ st < CAPACITY) :
    ∃ i < CAPACITY, st.table i = none := by
  by_contra hno
  push_neg at hno
  have h2 : ∀ i < CAPACITY, (st.table i).isSome = true := fun i hi =>
    Option.isSome_iff_ne_none.mpr (hno i hi)
  rw [occ_eq_capacity_of_allOccupied h2] at h
  omega

theorem occ_write_empty {st : ArrayHashTable} {p : Nat} (hp : p < CAPACITY)
    (hemp : st.table p = none) (e : AEntry) (s2 : ArrayHashTable)
    (h : s2.table = writeSlot st.table p e) : occ s2 = occ st + 1 := by
  rw [occ, occ, h]
  have hset : (Finset.range CAPACITY).filter
        (fun i => ((writeSlot st.table p e) i).isSome = true) =
      insert p ((Finset.range CAPACITY).filter fun i => (st.table i).isSome = true) := by
    ext j
    rw [Finset.mem_insert, Finset.mem_filter, Finset.mem_filter, Finset.mem_range]
    by_cases hjp : j = p
    · subst hjp
      rw [writeSlot, if_pos rfl]
      simp [hp]
    · rw [writeSlot, if_neg hjp]
      simp [hjp, Finset.mem_range]
  rw [hset, Finset.card_insert_of_not_mem]
  rw [Finset.mem_filter]
  intro hmem
  rw [hemp] at hmem
  exact absurd hmem.2 (by simp)

theorem insert_full_iff (hf : List Nat → Nat) (st : ArrayHashTable)
    (key : List Nat) (v : Int) :
    (ArrayHashTable.insert hf st key v).1 = .full ↔
      (key.length ≤ MAX_KEY_LEN ∧ (∀ i < CAPACITY, (st.table i).isSome = true) ∧
       ¬containsKey st key) := by
  constructor
  · intro h
    have hlen : ¬ MAX_KEY_LEN < key.length := by
      intro hl
      rw [ArrayHashTable.insert, if_pos hl] at h
      exact absurd h (by simp)
    rw [ArrayHashTable.insert, if_neg hlen] at h
    rcases hr : ArrayHashTable.insertLoop (padded_copy key) key.length key v
      CAPACITY (ArrayHashTable.hash hf key) st with ⟨r, st2⟩
    rw [hr] at h
    have hfull : ArrayHashTable.insertLoop (padded_copy key) key.length key v
        CAPACITY (ArrayHashTable.hash hf key) st = (.full, st2) := by
      rw [hr, (show r = InsertResult.full from h)]
    obtain ⟨_, hmis⟩ := insertLoop_full_elim _ _ _ _ _ _ _ _ (hash_lt hf key) hfull
    have hall : ∀ j < CAPACITY, misAt st key j := by
      intro j hj
      obtain ⟨t, ht, hcov⟩ := probe_cover (hash_lt hf key) hj
      rw [← hcov]
      exact hmis t ht
    refine ⟨by omega, ?_, ?_⟩
    · intro i hi
      obtain ⟨e, he, _⟩ := hall i hi
      rw [he]; rfl
    · rintro ⟨j, hj, e, he, hm⟩
      obtain ⟨e2, he2, hm2⟩ := hall j hj
      rw [he] at he2
      rw [Option.some.injEq] at he2
      rw [← he2] at hm2
      rw [hm] at hm2
      exact absurd hm2 (by simp)
  · rintro ⟨hlen, hocc, hnc⟩
    have hlen2 : ¬ MAX_KEY_LEN < key.length := by omega
    rw [ArrayHashTable.insert, if_neg hlen2]
    have hall : AllMismatch st key := by
      intro j hj
      obtain ⟨e, he⟩ := Option.isSome_iff_exists.mp (hocc j hj)
      refine ⟨e, he, ?_⟩
      by_contra hm
      rw [Bool.not_eq_false] at hm
      exact hnc ⟨j, hj, e, he, hm⟩
    rw [insertLoop_full_intro _ _ _ _ hall CAPACITY _ (hash_lt hf key)]

theorem insertAll_fresh (hf : List Nat → Nat) :
    ∀ (l : List (List Nat × Int)) (st : ArrayHashTable),
      (∀ k ∈ l.map Prod.fst, k.length ≤ MAX_KEY_LEN) →
      (l.map Prod.fst).Nodup →
      (∀ k ∈ l.map Prod.fst, ¬containsKey st k) →
      occ st + l.length ≤ CAPACITY →
      insertAllOkA hf st l = true ∧ occ (insertAllA hf st l) = occ st + l.length := by
  intro l
  induction l with
  | nil => intro st _ _ _ _; exact ⟨rfl, by rw [insertAllA, List.foldl_nil, List.length_nil, Nat.add_zero]⟩
  | cons kv rest ih =>
    intro st hlen hnd hfresh hroom
    obtain ⟨k, v⟩ := kv
    have hlenk : k.length ≤ MAX_KEY_LEN :=
      hlen k (by rw [List.map_cons]; exact List.mem_cons_self _ _)
    have hfreshk : ¬containsKey st k :=
      hfresh k (by rw [List.map_cons]; exact List.mem_cons_self _ _)
    have hocclt : occ st < CAPACITY := by
      rw [List.length_cons] at hroom; omega
    have hnfull : (ArrayHashTable.insert hf st k v).1 ≠ .full := by
      intro hfull
      obtain ⟨_, hocc, _⟩ := (insert_full_iff hf st k v).mp hfull
      rw [occ_eq_capacity_of_allOccupied hocc] at hocclt
      omega
    have hnktl : (ArrayHashTable.insert hf st k v).1 ≠ .keyTooLong := by
      intro hk
      have := (insert_keyTooLong_iff hf st k v).mp hk
      omega
    have hok : (ArrayHashTable.insert hf st k v).1 = .ok := by
      cases hres : (ArrayHashTable.insert hf st k v).1 with
      | ok => rfl
      | full => exact absurd hres hnfull
      | keyTooLong => exact absurd hres hnktl
    rcases hr : ArrayHashTable.insert hf st k v with ⟨r, st2⟩
    rw [hr] at hok hnfull hnktl
    have hok2 : r = .ok := hok
    have hlen2 : ¬ MAX_KEY_LEN < k.length := by omega
    have hloop : ArrayHashTable.insertLoop (padded_copy k) k.length k v
        CAPACITY (ArrayHashTable.hash hf k) st = (.ok, st2) := by
      rw [← hok2, ← hr, ArrayHashTable.insert, if_neg hlen2]
    obtain ⟨t, ht, hpre, hplt, htab, hlast, hfst⟩ :=
      insertLoop_ok_elim _ _ _ _ _ _ _ _ (hash_lt hf k) hloop
    have hempty : st.table ((ArrayHashTable.hash hf k + t) % CAPACITY) = none := by
      rcases hfst with ⟨he, _⟩ | ⟨e, he, hm, _⟩
      · exact he
      · exact absurd ⟨_, hplt, e, he, hm⟩ hfreshk
    have hocc2 : occ st2 = occ st + 1 := occ_write_empty hplt hempty _ st2 htab
    have hfresh2 : ∀ k2 ∈ rest.map Prod.fst, ¬containsKey st2 k2 := by
      intro k2 hk2 ⟨j, hj, e2, he2, hm2⟩
      rw [htab, writeSlot] at he2
      by_cases hjp : j = (ArrayHashTable.hash hf k + t) % CAPACITY
      · rw [if_pos hjp] at he2
        rw [Option.some.injEq] at he2
        rw [← he2, slotMatches_padded, beq_iff_eq] at hm2
        rw [List.map_cons] at hnd
        rw [hm2] at hnd
        exact (List.nodup_cons.mp hnd).1 hk2
      · rw [if_neg hjp] at he2
        exact hfresh k2 (by rw [List.map_cons]; exact List.mem_cons_of_mem _ hk2)
          ⟨j, hj, e2, he2, hm2⟩
    have hih := ih st2
      (fun k2 hk2 => hlen k2 (by rw [List.map_cons]; exact List.mem_cons_of_mem _ hk2))
      (by rw [List.map_cons] at hnd; exact (List.nodup_cons.mp hnd).2)
      hfresh2
      (by rw [List.length_cons] at hroom; omega)
    constructor
    · rw [insertAllOkA, hr, hok2]
      exact hih.1
    · rw [insertAllA, List.foldl_cons]
      have hstep : (ArrayHashTable.insert hf st k v).2 = st2 := by rw [hr]
      rw [hstep]
      show occ (insertAllA hf st2 rest) = _
      rw [hih.2, hocc2, List.length_cons]
      omega

theorem occ_new : occ ArrayHashTable.new = 0 := by
  rw [occ]
  rw [show (Finset.range CAPACITY).filter
      (fun i => (ArrayHashTable.new.table i).isSome = true) = ∅ from
    Finset.filter_false_of_mem fun i _ => by simp [ArrayHashTable.new]]
  rfl

/-- Claim C4: from the empty table, inserting any run of distinct valid keys
up to `CAPACITY` of them succeeds at every step and fills exactly one slot
per key — so `CAPACITY` distinct keys fill the table, after which a fresh
key meets `CAPACITY` occupied non-matching probe slots and fails with
`Full`; `Full` is returned exactly when every slot (one full probe
wrap-around) is occupied by a non-matching key, so an insert whose key is
already present never returns `Full`, however full the table. -/
theorem fullness_characterization :
    (∀ (hf : List Nat → Nat) (l : List (List Nat × Int)),
      (∀ k ∈ l.map Prod.fst, k.length ≤ MAX_KEY_LEN) →
      (l.map Prod.fst).Nodup → l.length ≤ CAPACITY →
      insertAllOkA hf ArrayHashTable.new l = true ∧
      occ (insertAllA hf ArrayHashTable.new l) = l.length) ∧
    (∀ (hf : List Nat → Nat) (st : ArrayHashTable) (key : List Nat) (v : Int),
      (ArrayHashTable.insert hf st key v).1 = .full ↔
        (key.length ≤ MAX_KEY_LEN ∧ (∀ i < CAPACITY, (st.table i).isSome = true) ∧
         ¬containsKey st key)) ∧
    (∀ (hf : List Nat → Nat) (st : ArrayHashTable) (key : List Nat) (v : Int),
      containsKey st key → (ArrayHashTable.insert hf st key v).1 ≠ .full) := by
  refine ⟨?_, insert_full_iff, ?_⟩
  · intro hf l hlen hnd hroom
    have h := insertAll_fresh hf l ArrayHashTable.new hlen hnd
      (fun k _ ⟨j, _, e, he, _⟩ => by
        rw [show ArrayHashTable.new.table j = none from rfl] at he
        exact absurd he (by simp))
      (by rw [occ_new]; omega)
    rw [occ_new] at h
    rw [Nat.zero_add] at h
    exact h
  · intro hf st key v hc hfull
    exact ((insert_full_iff hf st key v).mp hfull).2.2 hc

theorem fullMismatchTable_not_contains : ¬ containsKey fullMismatchTable missingKey := by
  rintro ⟨j, hj, e, he, hm⟩
  obtain ⟨e2, he2, hm2⟩ := fullMismatchTable_allMismatch j hj
  rw [he] at he2
  rw [Option.some.injEq] at he2
  rw [← he2] at hm2
  rw [hm] at hm2
  exact absurd hm2 (by simp)

/-- Witness for C4: a concrete run of two distinct inserts succeeds filling
two slots; the full mismatching table rejects a fresh key with `Full`; and an
insert of a key already present is never `Full`. -/
theorem fullness_characterization_witness :
    (insertAllOkA hf0 ArrayHashTable.new [([1], 3), ([2], 4)] = true ∧
     occ (insertAllA hf0 ArrayHashTable.new [([1], 3), ([2], 4)]) = 2) ∧
    (ArrayHashTable.insert hf0 fullMismatchTable missingKey 7).1 = .full ∧
    (ArrayHashTable.insert hf0 (ArrayHashTable.insert hf0 ArrayHashTable.new [1] 5).2
      [1] 6).1 ≠ .full :=
  ⟨fullness_characterization.1 hf0 [([1], 3), ([2], 4)] (by decide) (by decide)
     (by decide),
   (fullness_characterization.2.1 hf0 fullMismatchTable missingKey 7).mpr
     ⟨by decide, fun i hi => by simp [fullMismatchTable, hi],
      fullMismatchTable_not_contains⟩,
   fullness_characterization.2.2 hf0 (ArrayHashTable.insert hf0 ArrayHashTable.new [1] 5).2
     [1] 6 ⟨0, by decide, ⟨padded_copy [1], 1, 5⟩, by decide, by decide⟩⟩

theorem insertLoop_ok_intro (pk key : List Nat) (kl : Nat) (v : Int)
    {st : ArrayHashTable} :
    ∀ t fuel idx, idx < CAPACITY → t < fuel →
      (∀ u < t, misAt st key ((idx + u) % CAPACITY)) →
      st.table ((idx + t) % CAPACITY) = none →
      ArrayHashTable.insertLoop pk kl key v fuel idx st =
        (.ok, { table := writeSlot st.table ((idx + t) % CAPACITY) ⟨pk, kl, v⟩,
                first := if st.first = none then some ((idx + t) % CAPACITY)
                         else st.first,
                last := some ((idx + t) % CAPACITY) }) := by
  intro t
  induction t with
  | zero =>
    intro fuel idx hidx hf hpre hslot
    cases fuel with
    | zero => omega
    | succ n =>
      have hpos : (idx + 0) % CAPACITY = idx := by
        rw [Nat.add_zero]; exact Nat.mod_eq_of_lt hidx
      rw [hpos] at hslot ⊢
      simp [ArrayHashTable.insertLoop, hslot]
  | succ t2 ih =>
    intro fuel idx hidx hf hpre hslot
    cases fuel with
    | zero => omega
    | succ n =>
      have h0 := hpre 0 (by omega)
      have hpos0 : (idx + 0) % CAPACITY = idx := by
        rw [Nat.add_zero]; exact Nat.mod_eq_of_lt hidx
      rw [hpos0] at h0
      obtain ⟨e0, he0, hm0⟩ := h0
      simp only [ArrayHashTable.insertLoop, he0, hm0, Bool.false_eq_true, if_false]
      have hres := ih n _ (probe_step_lt hidx) (by omega) ?_ ?_
      · rw [hres, probe_shift]
      · intro u hu
        have h0 := hpre (u + 1) (by omega)
        rwa [← probe_shift] at h0
      · rwa [← probe_shift] at hslot

theorem c1_entry_mismatch {u m : Nat} (h : u ≠ m) :
    slotMatches (c1Entry u) [m] = false := by
  have h2 : slotMatches ⟨padded_copy [u], [u].length, 0⟩ [m] = ([u] == [m]) :=
    slotMatches_padded [u] [m] 0
  rw [show c1Entry u = ⟨padded_copy [u], [u].length, 0⟩ from rfl, h2,
    beq_eq_false_iff_ne]
  intro hh
  rw [List.cons.injEq] at hh
  exact h hh.1

theorem c1_step (m : Nat) (hm : m < CAPACITY) :
    ArrayHashTable.insert hf0 (c1Partial m) [m] 0 = (.ok, c1Partial (m + 1)) := by
  have hpos : (0 + m) % CAPACITY = m := by
    rw [Nat.zero_add]; exact Nat.mod_eq_of_lt hm
  have hpre : ∀ u < m, misAt (c1Partial m) [m] ((0 + u) % CAPACITY) := by
    intro u hu
    have hposu : (0 + u) % CAPACITY = u := by
      rw [Nat.zero_add]; exact Nat.mod_eq_of_lt (by omega)
    rw [hposu]
    refine ⟨c1Entry u, ?_, c1_entry_mismatch (by omega)⟩
    show (if u < m then some (c1Entry u) else none) = _
    rw [if_pos hu]
  have hslot : (c1Partial m).table ((0 + m) % CAPACITY) = none := by
    rw [hpos]
    show (if m < m then some (c1Entry m) else none) = none
    rw [if_neg (by omega)]
  have hintro := @insertLoop_ok_intro (padded_copy [m]) [m] ([m] : List Nat).length 0
    (c1Partial m) m CAPACITY 0 CAPACITY_pos hm hpre hslot
  rw [hpos] at hintro
  have htab : writeSlot (c1Partial m).table m
      ⟨padded_copy [m], ([m] : List Nat).length, 0⟩ = (c1Partial (m + 1)).table := by
    funext i
    show (if i = m then some (⟨padded_copy [m], ([m] : List Nat).length, 0⟩ : AEntry)
          else (c1Partial m).table i) = (if i < m + 1 then some (c1Entry i) else none)
    by_cases him : i = m
    · rw [if_pos him, if_pos (by omega), him]
      rfl
    · rw [if_neg him]
      show (if i < m then some (c1Entry i) else none) = _
      by_cases hilt : i < m
      · rw [if_pos hilt, if_pos (by omega)]
      · rw [if_neg hilt, if_neg (by omega)]
  have hfst : (if (c1Partial m).first = none then some m else (c1Partial m).first)
      = (c1Partial (m + 1)).first := by
    show (if (if m = 0 then none else some 0) = (none : Option Nat) then some m
          else if m = 0 then none else some 0) = (if m + 1 = 0 then none else some 0)
    by_cases hm0 : m = 0
    · subst hm0
      rfl
    · rw [if_neg hm0]
      rw [if_neg (by simp : ¬ (some 0 : Option Nat) = none)]
      rw [if_neg (by omega : ¬ m + 1 = 0)]
  have hlst : (some m : Option Nat) = (c1Partial (m + 1)).last := by
    show _ = (if m + 1 = 0 then none else some (m + 1 - 1))
    rw [if_neg (by omega)]
    rw [Option.some.injEq]
    omega
  rw [ArrayHashTable.insert,
    if_neg (by rw [List.length_singleton]; decide : ¬ MAX_KEY_LEN < ([m] : List Nat).length)]
  rw [show ArrayHashTable.hash hf0 [m] = 0 from rfl]
  rw [hintro, htab, hfst, hlst]

theorem c1_run : ∀ m, m ≤ CAPACITY →
    ArrayHashTable.runOps hf0 (c1Ops m) = some (c1Partial m) := by
  intro m
  induction m with
  | zero =>
    intro _
    show some ArrayHashTable.new = some (c1Partial 0)
    rw [Option.some.injEq, ArrayHashTable.new, c1Partial, ArrayHashTable.mk.injEq]
    refine ⟨?_, rfl, rfl⟩
    funext i
    rw [if_neg (by omega)]
  | succ m ih =>
    intro hle
    have hstep := c1_step m (by omega)
    rw [ArrayHashTable.runOps, c1Ops, List.range_succ, List.map_append,
      List.foldl_append]
    have hih : ((List.range m).map fun i => AOp.ins ([i] : List Nat) 0).foldl
        (fun acc op => acc.bind fun st => ArrayHashTable.applyOp hf0 st op)
        (some ArrayHashTable.new) = some (c1Partial m) := ih (by omega)
    rw [hih, List.map_singleton, List.foldl_cons, List.foldl_nil]
    show ArrayHashTable.applyOp hf0 (c1Partial m) (AOp.ins [m] 0) = _
    rw [ArrayHashTable.applyOp, hstep]

theorem c1Partial_capacity : c1Partial CAPACITY = fullMismatchTable := by
  rw [c1Partial, fullMismatchTable, ArrayHashTable.mk.injEq]
  exact ⟨rfl, by rw [if_neg (by decide)], by rw [if_neg (by decide)]⟩

/-- Claim C1 (code_bug record): the full table whose slot `i` holds the
one-byte key `[i]` is actually reached by running the `CAPACITY` inserts
`[0], [1], ..., [CAPACITY-1]` from `new()` under the constant-zero hasher
(exactly how the repository's own `test_insert_over_capacity` fills the
table), and on it, with a key stored nowhere, `ArrayHashTable::get` and
`ArrayHashTable::remove` have not returned after any number of probe steps
whatsoever: their unbounded `loop`s never terminate, against the specified
bound of `CAPACITY` probe steps. -/
theorem full_table_get_and_remove_never_return :
    ArrayHashTable.runOps hf0 (c1Ops CAPACITY) = some fullMismatchTable ∧
    ∀ (hf : List Nat → Nat) (fuel : Nat),
      ArrayHashTable.get hf fullMismatchTable missingKey fuel = none ∧
      ArrayHashTable.remove hf fullMismatchTable missingKey fuel = none :=
  ⟨by have h := c1_run CAPACITY le_rfl; rwa [c1Partial_capacity] at h,
   fun hf fuel =>
     ⟨getLoop_stuck fullMismatchTable_allMismatch fuel _ (hash_lt hf missingKey),
      removeLoop_stuck fullMismatchTable_allMismatch fuel _ (hash_lt hf missingKey)⟩⟩
